import Mathlib

/-!
Verification of the auxmark scan/dispatch/schedule/rewrite engine
(`tools/auxmark` in the repository) against its design specification.

The Python source is shallowly embedded:

* `process_file`, `expand_file`, the scan loop of `process_all`,
  `run_preprocessing` and `run_postprocessing` (processor.py) become pure
  state-passing functions over an explicit filesystem model `Fs`;
* `extract_domain_from_job` (worker.py) is embedded directly, with
  `urllib.parse.urlparse(...).netloc` taken as an external parameter;
* the rate-limited worker pool (worker.py) is embedded as a small-step
  transition system over thread phases, per-domain locks and a global clock;
* detector modules are opaque `ModuleSpec` records (probe / preprocess /
  postprocess functions), matching `BaseModule` in core.py;
* side effects that the code merely reports (prints) are modelled as an
  explicit `Event` trace.
-/

namespace Auxmark

/-- Model of `pathlib.Path` as used by the tool: a directory prefix, a stem
and a suffix.  `name = stem ++ suffix`; `with_suffix` replaces the suffix;
`parent / stem / "index.md"` is the expansion target. -/
structure FPath where
  dir : List String
  stem : String
  suffix : String
deriving DecidableEq, Repr

/-- `Path.name` (e.g. `"index.md"`). -/
def FPath.name (p : FPath) : String := p.stem ++ p.suffix

/-- `Path.with_suffix`, as used for the temporary rewrite file. -/
def FPath.withSuffix (p : FPath) (s : String) : FPath := { p with suffix := s }

/-- The canonical page-bundle target of `expand_file`:
`path/to/file.md -> path/to/file/index.md`. -/
def expandTarget (p : FPath) : FPath := ⟨p.dir ++ [p.stem], "index", ".md"⟩

/-- One entry of the `images` metadata list (a dict with an optional
`url` key), as inspected by `extract_domain_from_job`. -/
structure ImageEntry where
  url : Option String
  extra : Nat := 0
deriving DecidableEq, Repr

/-- Model of the metadata dict produced by `probe`: the keys inspected by
`extract_domain_from_job` (`images`, `tweet_id`, `url`; `none` = key
absent) plus an opaque payload for everything else. -/
structure Metadata where
  images : Option (List ImageEntry) := none
  tweet_id : Option String := none
  url : Option String := none
  extra : Nat := 0
deriving DecidableEq, Repr

/-- `Action` enum from core.py. -/
inductive Action
  | IGNORE
  | TAG
  | TAG_WITH_PREPROCESS_ONLY
  | TAG_WITH_PREPROCESS_AND_POSTPROCESS
  | EXPAND
deriving DecidableEq, Repr

/-- `Job` dataclass from core.py. -/
structure Job where
  file_path : FPath
  line_no : Nat
  line : String
  module_name : String
  metadata : Metadata
deriving DecidableEq, Repr

/-- `PostprocessLine` dataclass from core.py. -/
structure PostprocessLine where
  file_path : FPath
  line_no : Nat
  line : String
  metadata : Metadata
deriving DecidableEq, Repr

/-- The behavioural part of a `BaseModule`: its name, compiled regex
(`regex.search` as a boolean test) and the `probe` / `postprocess`
capabilities.  `preprocess` is modelled separately as an outcome oracle,
since only its boolean/raise outcome is observed by the processor. -/
structure ModuleSpec where
  name : String
  regexMatch : String → Bool
  probe : FPath → Nat → String → Action × Metadata
  postprocess : FPath → Nat → String → Metadata → String

/-- The mutable per-module state accumulated during scanning: the module's
`jobs` and `postprocess_lines` lists. -/
structure ModuleState where
  spec : ModuleSpec
  jobs : List Job
  postprocess_lines : List PostprocessLine

/-- The filesystem: a map from paths to document contents (line lists). -/
def Fs : Type := FPath → Option (List String)

/-- Pointwise filesystem update. -/
def fsUpd (fs : Fs) (p : FPath) (v : Option (List String)) : Fs :=
  fun q => if q = p then v else fs q

/-- Observable events of a run: each constructor corresponds to one print /
log site or one performed effect in processor.py. -/
inductive Event
  | scanned (p : FPath)
  | skippedExpanded (p : FPath)
  | readError (p : FPath)
  | warnAlreadyIndex (p : FPath)
  | dryRunExpand (p : FPath) (nf : FPath)
  | expandError (p : FPath)
  | expandedEv (p : FPath) (nf : FPath)
  | dryRunPre (p : FPath) (n : Nat)
  | preprocessRun (j : Job)
  | preprocessError (p : FPath) (n : Nat)
  | dryRunPost (p : FPath) (n : Nat)
  | rewroteLine (p : FPath) (n : Nat) (moduleName : String)
  | rewriteOk (p : FPath)
  | rewriteError (p : FPath)
deriving DecidableEq, Repr

/-- URL extraction part of `extract_domain_from_job` (worker.py): the
`images` / `tweet_id` / `url` metadata precedence chain. -/
def jobUrl (job : Job) : Option String :=
  match job.metadata.images with
  | some imgs =>
      match imgs.head? with
      | some entry => entry.url
      | none => none
  | none =>
      match job.metadata.tweet_id with
      | some tid =>
          some ("https://publish.x.com/oembed?url=https://x.com/i/status/" ++ tid)
      | none => job.metadata.url

/-- `extract_domain_from_job` (worker.py).  `netloc` is the external
`urllib.parse.urlparse(url).netloc` collaborator; an empty netloc (or no
URL at all) falls back to the shared `"__local__"` bucket. -/
def extract_domain_from_job (netloc : String → String) (job : Job) : String :=
  match jobUrl job with
  | some u => if netloc u = "" then "__local__" else netloc u
  | none => "__local__"

/-- Result bundle of `expand_file`: the returned `Optional[Path]`, the
filesystem after the move, the `expanded_files` set and the diagnostic
emitted. -/
structure ExpandRes where
  newFile : Option FPath
  fs : Fs
  expanded : List FPath
  ev : Event

/-- `Processor.expand_file` (processor.py).  The `git mv` collaborator is
modelled by its contract: it succeeds (performing the move) iff the source
exists and the destination does not, and fails with a reported error
otherwise.  A path already named `index.md` is refused with a distinct
warning before anything is attempted; in dry-run mode the new path is
returned but no move is performed and `expanded_files` is not updated. -/
def expand_file (dry : Bool) (fs : Fs) (expanded : List FPath) (fp : FPath) :
    ExpandRes :=
  if fp.name = "index.md" then
    ⟨none, fs, expanded, Event.warnAlreadyIndex fp⟩
  else
    let nf := expandTarget fp
    if dry then
      ⟨some nf, fs, expanded, Event.dryRunExpand fp nf⟩
    else
      match fs fp with
      | none => ⟨none, fs, expanded, Event.expandError fp⟩
      | some content =>
          match fs nf with
          | some _ => ⟨none, fs, expanded, Event.expandError fp⟩
          | none =>
              ⟨some nf, fsUpd (fsUpd fs nf (some content)) fp none,
               expanded ++ [fp], Event.expandedEv fp nf⟩

/-- The inner loop body of `Processor.process_file`: run one module on one
line (regex pre-filter, then `probe`, then dispatch on the action).
Returns the updated module state and whether this module requested
expansion on this line. -/
def scanOneModule (fp : FPath) (ln : Nat) (line : String) (m : ModuleState) :
    ModuleState × Bool :=
  if m.spec.regexMatch line then
    match m.spec.probe fp ln line with
    | (Action.IGNORE, _) => (m, false)
    | (Action.TAG, md) =>
        ({ m with postprocess_lines :=
            m.postprocess_lines ++ [⟨fp, ln, line, md⟩] }, false)
    | (Action.TAG_WITH_PREPROCESS_ONLY, md) =>
        ({ m with jobs := m.jobs ++ [⟨fp, ln, line, m.spec.name, md⟩] }, false)
    | (Action.TAG_WITH_PREPROCESS_AND_POSTPROCESS, md) =>
        ({ m with
            jobs := m.jobs ++ [⟨fp, ln, line, m.spec.name, md⟩],
            postprocess_lines := m.postprocess_lines ++ [⟨fp, ln, line, md⟩] },
         false)
    | (Action.EXPAND, _) => (m, true)
  else (m, false)

/-- Run every module on one line (inner `for module in self.modules`). -/
def scanModulesOnLine (fp : FPath) (ln : Nat) (line : String) :
    List ModuleState → List ModuleState × Bool
  | [] => ([], false)
  | m :: ms =>
      let r := scanOneModule fp ln line m
      let rest := scanModulesOnLine fp ln line ms
      (r.1 :: rest.1, r.2 || rest.2)

/-- Scan all lines from index `ln` on (outer `for line_no, line in
enumerate(lines)`), accumulating module state and the
`file_needs_expand` flag. -/
def scanLinesFrom (fp : FPath) (ln : Nat) (lines : List String)
    (ms : List ModuleState) : List ModuleState × Bool :=
  match lines with
  | [] => (ms, false)
  | l :: rest =>
      let r := scanModulesOnLine fp ln l ms
      let r2 := scanLinesFrom fp (ln + 1) rest r.1
      (r2.1, r.2 || r2.2)

/-- Discard one module's jobs and postprocess lines referencing a stale
path (the two list comprehensions in `process_file`). -/
def purge (fp : FPath) (m : ModuleState) : ModuleState :=
  { m with
    jobs := m.jobs.filter (fun j => j.file_path ≠ fp),
    postprocess_lines :=
      m.postprocess_lines.filter (fun pp => pp.file_path ≠ fp) }

/-- Processor state threaded through scanning: the module list and the
`dry_run`, `expanded_files` and `files_to_process` fields of `Processor`. -/
structure ProcState where
  modules : List ModuleState
  dry_run : Bool
  expanded_files : List FPath
  files_to_process : List FPath

/-- `Processor.process_file`: skip files moved by an earlier expansion,
read the file, scan every line with every module, and on a requested
expansion call `expand_file`; on a successful non-dry-run expansion purge
every module's jobs and postprocess lines for the old path and re-queue
the new path. -/
def process_file (fs : Fs) (st : ProcState) (fp : FPath) :
    ProcState × Fs × List Event :=
  if fp ∈ st.expanded_files then (st, fs, [Event.skippedExpanded fp])
  else
    match fs fp with
    | none => (st, fs, [Event.readError fp])
    | some lines =>
        let r := scanLinesFrom fp 0 lines st.modules
        let st1 : ProcState := { st with modules := r.1 }
        if r.2 then
          let er := expand_file st1.dry_run fs st1.expanded_files fp
          let st2 : ProcState := { st1 with expanded_files := er.expanded }
          match er.newFile with
          | some nf =>
              if st2.dry_run then (st2, er.fs, [Event.scanned fp, er.ev])
              else
                ({ st2 with
                    modules := st2.modules.map (purge fp),
                    files_to_process := st2.files_to_process ++ [nf] },
                 er.fs, [Event.scanned fp, er.ev])
          | none => (st2, er.fs, [Event.scanned fp, er.ev])
        else (st1, fs, [Event.scanned fp])

/-- Output of the scan loop: final filesystem, final processor state, the
event trace and the sequence of popped (scanned) worklist entries. -/
structure ScanOut where
  fs : Fs
  st : ProcState
  events : List Event
  pops : List FPath

/-- The `while self.files_to_process:` loop of `process_all`, with an
explicit fuel (a bound on the number of iterations; the loop itself
terminates because re-queued files are always named `index.md` and such
files are never re-queued again). -/
def scanSteps : Nat → Fs → ProcState → ScanOut
  | 0, fs, st => ⟨fs, st, [], []⟩
  | Nat.succ fuel, fs, st =>
      match st.files_to_process with
      | [] => ⟨fs, st, [], []⟩
      | fp :: rest =>
          let r := process_file fs { st with files_to_process := rest } fp
          let out := scanSteps fuel r.2.1 r.1
          ⟨out.fs, out.st, r.2.2 ++ out.events, fp :: out.pops⟩

/-- Termination measure of the scan loop: re-queueable entries weigh 2,
`index.md` entries (which can never cause a re-queue) weigh 1. -/
def queueWt (fp : FPath) : Nat := if fp.name = "index.md" then 1 else 2

/-- Measure of a whole worklist. -/
def queueMeasure (q : List FPath) : Nat := (q.map queueWt).sum

/-- Fuel used by `process_all`; always at least `queueMeasure files`. -/
def scanFuel (files : List FPath) : Nat := 2 * files.length + 1

/-- Observable outcome of one `module.preprocess(job)` call as seen by
`run_preprocessing`: returned true, returned false, or raised. -/
inductive PreOutcome
  | ok
  | failed
  | raised
deriving DecidableEq, Repr

/-- Outcome oracle for `preprocess`: module name and job determine the
observed outcome.  (The detector body is an external plugin; only the
outcome crosses the processor boundary.) -/
def PreOracle : Type := String → Job → PreOutcome

/-- All (module name, job) pairs in submission order (`for module in
self.modules: for job in module.jobs`). -/
def jobList (modules : List ModuleState) : List (String × Job) :=
  modules.foldl (fun acc m => acc ++ m.jobs.map (fun j => (m.spec.name, j))) []

/-- Result of `run_preprocessing`: the success / failure tallies and the
event trace (dry-run intents, executed jobs, reported raised errors). -/
structure PreOut where
  completed : Nat
  failed : Nat
  events : List Event

/-- `Processor.run_preprocessing`.  In dry-run mode every job is reported
as an intent and counted as completed.  Otherwise every job's outcome is
collected in submission order: true increments `completed`, false
increments `failed`, and a raised error increments `failed` and is
reported with the job's document and line; no outcome aborts the
remaining jobs.  (The worker-pool timing itself is modelled separately
below; result collection order and the tallies are as in the source.) -/
def run_preprocessing (pre : PreOracle) (dry : Bool)
    (modules : List ModuleState) : PreOut :=
  let jobs := jobList modules
  if dry then
    ⟨jobs.length, 0,
     jobs.map (fun x => Event.dryRunPre x.2.file_path x.2.line_no)⟩
  else
    jobs.foldl
      (fun acc x =>
        match pre x.1 x.2 with
        | PreOutcome.ok =>
            ⟨acc.completed + 1, acc.failed,
             acc.events ++ [Event.preprocessRun x.2]⟩
        | PreOutcome.failed =>
            ⟨acc.completed, acc.failed + 1,
             acc.events ++ [Event.preprocessRun x.2]⟩
        | PreOutcome.raised =>
            ⟨acc.completed, acc.failed + 1,
             acc.events ++ [Event.preprocessRun x.2,
               Event.preprocessError x.2.file_path x.2.line_no]⟩)
      ⟨0, 0, []⟩

/-- Ordered-dict insertion: append `v` to the entry for key `k`, creating
the entry at the back when the key is new (Python dict insertion-order
semantics used for both the per-file grouping and the per-line map). -/
def addEntry {κ α : Type} [DecidableEq κ] :
    List (κ × List α) → κ → α → List (κ × List α)
  | [], k, v => [(k, [v])]
  | (k', vs) :: rest, k, v =>
      if k' = k then (k', vs ++ [v]) :: rest
      else (k', vs) :: addEntry rest k v

/-- Ordered-dict lookup. -/
def lookupEntry {κ α : Type} [DecidableEq κ] :
    List (κ × List α) → κ → Option (List α)
  | [], _ => none
  | (k', vs) :: rest, k => if k' = k then some vs else lookupEntry rest k

/-- The per-file grouping built at the top of `run_postprocessing`:
iterate modules in registration order, then each module's
`postprocess_lines` in order, grouping by `file_path`. -/
def groupByFile (modules : List ModuleState) :
    List (FPath × List (ModuleSpec × PostprocessLine)) :=
  modules.foldl
    (fun acc m =>
      m.postprocess_lines.foldl
        (fun a pp => addEntry a pp.file_path (m.spec, pp)) acc)
    []

/-- The per-line lookup built inside `run_postprocessing` for one file:
`line_no -> list of (module, metadata)`. -/
def buildLineMap (tagged : List (ModuleSpec × PostprocessLine)) :
    List (Nat × List (ModuleSpec × Metadata)) :=
  tagged.foldl (fun acc x => addEntry acc x.2.line_no (x.1, x.2.metadata)) []

/-- Apply every tagging module's `postprocess` to one line, feeding each
output as the next input, and log one rewrite event per call. -/
def postprocessOneLine (fp : FPath) (ln : Nat)
    (taggers : List (ModuleSpec × Metadata)) (l : String) :
    String × List Event :=
  taggers.foldl
    (fun acc t =>
      (t.1.postprocess fp ln acc.1 t.2,
       acc.2 ++ [Event.rewroteLine fp ln t.1.name]))
    (l, [])

/-- The line-processing loop of `run_postprocessing`: walk the lines from
index `ln`; a line present in the map goes through its taggers, any other
line passes through unchanged. -/
def rewriteLinesFrom (fp : FPath)
    (lm : List (Nat × List (ModuleSpec × Metadata))) :
    Nat → List String → List String × List Event
  | _, [] => ([], [])
  | ln, l :: rest =>
      let hd :=
        match lookupEntry lm ln with
        | some taggers => postprocessOneLine fp ln taggers l
        | none => (l, [])
      let tl := rewriteLinesFrom fp lm (ln + 1) rest
      (hd.1 :: tl.1, hd.2 ++ tl.2)

/-- How the write-temp-then-replace sequence for one file can go: complete
success, an I/O error after `k` lines were written to the temp file, or an
I/O error after the temp file was fully written but before the atomic
replace. -/
inductive WriteOutcome
  | ok
  | failDuringWrite (k : Nat)
  | failBeforeReplace
deriving DecidableEq, Repr

/-- Per-file body of `run_postprocessing` (real run): read the file (a
read failure is the reported per-file error), build the line map, rewrite
the lines, write the full result to `file_path.with_suffix('.tmp')` and
atomically replace the original (`os.replace`: the destination is only
ever switched to the complete temp contents, never to a prefix).  Any I/O
failure leaves the original untouched (only the temp path may hold
partial data) and is reported; `wo` says how far the write got. -/
def rewriteFileEff (wo : FPath → WriteOutcome) (fs : Fs) (fp : FPath)
    (tagged : List (ModuleSpec × PostprocessLine)) : Fs × List Event :=
  match fs fp with
  | none => (fs, [Event.rewriteError fp])
  | some lines =>
      let lm := buildLineMap tagged
      let r := rewriteLinesFrom fp lm 0 lines
      let tmp := fp.withSuffix ".tmp"
      match wo fp with
      | WriteOutcome.ok =>
          (fsUpd (fsUpd fs tmp none) fp (some r.1),
           r.2 ++ [Event.rewriteOk fp])
      | WriteOutcome.failDuringWrite k =>
          (fsUpd fs tmp (some (r.1.take k)), r.2 ++ [Event.rewriteError fp])
      | WriteOutcome.failBeforeReplace =>
          (fsUpd fs tmp (some r.1), r.2 ++ [Event.rewriteError fp])

/-- Result of `run_postprocessing`. -/
structure PostOut where
  fs : Fs
  events : List Event

/-- `Processor.run_postprocessing`: group all tagged lines by file, then
process each file in grouping order; in dry-run mode each file is only
reported; a per-file failure is reported and does not stop the loop. -/
def run_postprocessing (wo : FPath → WriteOutcome) (dry : Bool) (fs : Fs)
    (modules : List ModuleState) : PostOut :=
  (groupByFile modules).foldl
    (fun acc g =>
      if dry then ⟨acc.fs, acc.events ++ [Event.dryRunPost g.1 g.2.length]⟩
      else
        let r := rewriteFileEff wo acc.fs g.1 g.2
        ⟨r.1, acc.events ++ r.2⟩)
    ⟨fs, []⟩

/-- Result of a full `process_all` run. -/
structure RunOut where
  fs : Fs
  st : ProcState
  scanEvents : List Event
  preEvents : List Event
  postEvents : List Event
  pops : List FPath
  preOut : PreOut

/-- Full event trace of a run in order. -/
def RunOut.events (r : RunOut) : List Event :=
  r.scanEvents ++ r.preEvents ++ r.postEvents

/-- `Processor.process_all`: drain the dynamic worklist (scanning), then
run preprocessing, then post-processing. -/
def process_all (pre : PreOracle) (wo : FPath → WriteOutcome) (dry : Bool)
    (modules : List ModuleState) (files : List FPath) (fs : Fs) : RunOut :=
  let st0 : ProcState := ⟨modules, dry, [], files⟩
  let s := scanSteps (scanFuel files) fs st0
  let p := run_preprocessing pre dry s.st.modules
  let q := run_postprocessing wo dry s.fs s.st.modules
  ⟨q.fs, s.st, s.events, p.events, q.events, s.pops, p⟩

/-- All jobs across all module states. -/
def allJobs (ms : List ModuleState) : List Job :=
  ms.foldr (fun m acc => m.jobs ++ acc) []

/-- All tagged lines across all module states. -/
def allPPs (ms : List ModuleState) : List PostprocessLine :=
  ms.foldr (fun m acc => m.postprocess_lines ++ acc) []

/-!
Small-step model of `RateLimitedWorkerPool` (worker.py).

Each worker thread runs `_execute_with_rate_limit(job, module, domain)`
where `domain = extract_domain_from_job(job)`:

1. acquire the domain's lock (`with lock:`);
2. wait until `now - _last_request_time[domain] >= rate_limit_delay`
   (`_wait_for_rate_limit`), then call `module.preprocess(job)`;
3. when `preprocess` returns, store `time.time()` into
   `_last_request_time[domain]` and release the lock.

The model keeps a global rational clock that only moves forward, the
per-domain lock bits, the `_last_request_time` map, and each thread's
phase; timings of `preprocess` bodies and the scheduler interleaving are
fully nondeterministic.  The recorded interval of an execution is
`[start, fin]` where `fin` is the instant the timestamp is written (an
upper bound of the instant `preprocess` returned). -/

/-- Phase of one worker thread executing `_execute_with_rate_limit`. -/
inductive Phase
  | idle
  | locked
  | running (start : ℚ)
  | finished (start : ℚ) (fin : ℚ)
deriving DecidableEq

/-- One worker thread: the job it was submitted and its current phase. -/
structure Thread where
  job : Job
  phase : Phase

/-- State of the worker pool. -/
structure PoolState where
  now : ℚ
  lastReq : String → Option ℚ
  lockHeld : String → Bool
  threads : Nat → Thread

/-- Update of a string-keyed map. -/
def supd {β : Type} (f : String → β) (k : String) (v : β) : String → β :=
  fun k' => if k' = k then v else f k'

/-- Update one thread's phase. -/
def updThread (ts : Nat → Thread) (i : Nat) (ph : Phase) : Nat → Thread :=
  fun j => if j = i then { ts i with phase := ph } else ts j

/-- The domain a thread is rate-limited under: `extract_domain_from_job`
applied to its job. -/
def Thread.domain (netloc : String → String) (t : Thread) : String :=
  extract_domain_from_job netloc t.job

/-- Interleaved small-step semantics of the pool, phrased relationally
(the successor state is characterised by field equations).  `tick`
advances the clock; `acquire` takes a free domain lock; `start` begins the
`preprocess` call, allowed only once the pacing wait is satisfied (after
`time.sleep`, `now - last_request_time >= delay`); `finish` ends the
call, records the timestamp and releases the lock. -/
inductive Step (netloc : String → String) (delay : ℚ)
    (s s' : PoolState) : Prop
  | tick (t : ℚ) (ht : 0 ≤ t) (hnow : s'.now = s.now + t)
      (hlast : s'.lastReq = s.lastReq) (hlock : s'.lockHeld = s.lockHeld)
      (hthreads : s'.threads = s.threads)
  | acquire (i : Nat) (hidle : (s.threads i).phase = Phase.idle)
      (hfree : s.lockHeld ((s.threads i).domain netloc) = false)
      (hnow : s'.now = s.now) (hlast : s'.lastReq = s.lastReq)
      (hlock : s'.lockHeld =
        supd s.lockHeld ((s.threads i).domain netloc) true)
      (hthreads : s'.threads = updThread s.threads i Phase.locked)
  | start (i : Nat) (hlocked : (s.threads i).phase = Phase.locked)
      (hwait : ∀ t, s.lastReq ((s.threads i).domain netloc) = some t →
        t + delay ≤ s.now)
      (hnow : s'.now = s.now) (hlast : s'.lastReq = s.lastReq)
      (hlock : s'.lockHeld = s.lockHeld)
      (hthreads : s'.threads = updThread s.threads i (Phase.running s.now))
  | finish (i : Nat) (st : ℚ)
      (hrun : (s.threads i).phase = Phase.running st)
      (hnow : s'.now = s.now)
      (hlast : s'.lastReq =
        supd s.lastReq ((s.threads i).domain netloc) (some s.now))
      (hlock : s'.lockHeld =
        supd s.lockHeld ((s.threads i).domain netloc) false)
      (hthreads : s'.threads = updThread s.threads i (Phase.finished st s.now))

/-- Initial pool state: no timestamps, no locks held, all threads idle
with their submitted jobs. -/
def initPool (jobs : Nat → Job) (n0 : ℚ) : PoolState :=
  ⟨n0, fun _ => none, fun _ => false, fun i => ⟨jobs i, Phase.idle⟩⟩

/-- Reachability of pool states from an initial state. -/
def PoolReachable (netloc : String → String) (delay : ℚ)
    (jobs : Nat → Job) (n0 : ℚ) (s : PoolState) : Prop :=
  Relation.ReflTransGen (Step netloc delay) (initPool jobs n0) s

/-- A thread is active while it holds its domain lock (from `acquire`
until `finish`). -/
def activeTh (s : PoolState) (i : Nat) : Prop :=
  (s.threads i).phase = Phase.locked ∨
    ∃ st, (s.threads i).phase = Phase.running st

/-- All (module, tagged line) pairs of one document in module
registration order, then per-module append order: the reference form of
the per-file grouping. -/
def taggedFor (modules : List ModuleState) (fp : FPath) :
    List (ModuleSpec × PostprocessLine) :=
  modules.foldr (fun m acc =>
    ((m.postprocess_lines.filter (fun pp => pp.file_path = fp)).map
      (fun pp => (m.spec, pp))) ++ acc) []

/-- The taggers of one line among a per-file tagged-line list, in list
order: the reference form of the per-line lookup. -/
def lineTaggers (tagged : List (ModuleSpec × PostprocessLine)) (ln : Nat) :
    List (ModuleSpec × Metadata) :=
  (tagged.filter (fun x => x.2.line_no = ln)).map
    (fun x => (x.1, x.2.metadata))

/-- Left-to-right composition of the taggers' `postprocess` on one line:
each detector's output is the next detector's input. -/
def applyTaggers (fp : FPath) (ln : Nat)
    (taggers : List (ModuleSpec × Metadata)) (l : String) : String :=
  taggers.foldl (fun acc t => t.1.postprocess fp ln acc t.2) l

/-- The taggers of line `ln` of document `fp` grouped per module in
registration order — the explicit order in which `postprocess` calls are
composed on one line. -/
def lineTaggersByModule (modules : List ModuleState) (fp : FPath)
    (ln : Nat) : List (ModuleSpec × Metadata) :=
  modules.foldr (fun m acc =>
    ((m.postprocess_lines.filter
        (fun pp => pp.file_path = fp ∧ pp.line_no = ln)).map
      (fun pp => (m.spec, pp.metadata))) ++ acc) []

/-- Inductive invariant of the pool semantics. -/
structure PoolInv (netloc : String → String) (delay : ℚ)
    (s : PoolState) : Prop where
  run_le : ∀ i st, (s.threads i).phase = Phase.running st → st ≤ s.now
  fin_le : ∀ i st f, (s.threads i).phase = Phase.finished st f →
    st ≤ f ∧ f ≤ s.now
  act_lock : ∀ i, activeTh s i →
    s.lockHeld ((s.threads i).domain netloc) = true
  act_uniq : ∀ i j, activeTh s i → activeTh s j →
    (s.threads i).domain netloc = (s.threads j).domain netloc → i = j
  last_le : ∀ d t, s.lastReq d = some t → t ≤ s.now
  fin_last : ∀ i st f, (s.threads i).phase = Phase.finished st f →
    ∃ t, s.lastReq ((s.threads i).domain netloc) = some t ∧ f ≤ t
  run_gap : ∀ i st, (s.threads i).phase = Phase.running st →
    ∀ t, s.lastReq ((s.threads i).domain netloc) = some t → t + delay ≤ st
  fin_fin : ∀ i j sti fi stj fj, i ≠ j →
    (s.threads i).domain netloc = (s.threads j).domain netloc →
    (s.threads i).phase = Phase.finished sti fi →
    (s.threads j).phase = Phase.finished stj fj →
    fi + delay ≤ stj ∨ fj + delay ≤ sti
  run_fin : ∀ i st j stj fj, (s.threads i).phase = Phase.running st →
    i ≠ j → (s.threads i).domain netloc = (s.threads j).domain netloc →
    (s.threads j).phase = Phase.finished stj fj → fj + delay ≤ st

/-- Re-queued files recorded in an event trace (the arguments of
`expandedEv` events), in order. -/
def extraOf (evs : List Event) : List FPath :=
  evs.filterMap (fun e =>
    match e with
    | Event.expandedEv _ nf => some nf
    | _ => none)

/-- Scan-phase events. -/
def isScanEv : Event → Bool
  | Event.scanned _ => true
  | Event.skippedExpanded _ => true
  | Event.readError _ => true
  | Event.warnAlreadyIndex _ => true
  | Event.dryRunExpand _ _ => true
  | Event.expandError _ => true
  | Event.expandedEv _ _ => true
  | _ => false

/-- Preprocessing-phase events. -/
def isPreEv : Event → Bool
  | Event.dryRunPre _ _ => true
  | Event.preprocessRun _ => true
  | Event.preprocessError _ _ => true
  | _ => false

/-- Post-processing-phase events. -/
def isPostEv : Event → Bool
  | Event.dryRunPost _ _ => true
  | Event.rewroteLine _ _ _ => true
  | Event.rewriteOk _ => true
  | Event.rewriteError _ => true
  | _ => false

/-- The classification counts reported by a run: documents scanned, jobs
created, lines tagged. -/
structure RunCounts where
  documentsScanned : Nat
  jobsCreated : Nat
  linesTagged : Nat
deriving DecidableEq, Repr

/-- Counts of a finished run. -/
def RunOut.counts (r : RunOut) : RunCounts :=
  ⟨r.pops.length, (allJobs r.st.modules).length, (allPPs r.st.modules).length⟩

/-- Metadata of the demo detector below: one external image, as built by
the image-localizer module. -/
def demoMeta : Metadata :=
  { images := some [⟨some "https://example.com/i.png", 0⟩] }

/-- A concrete detector with the probe shape of `ImageLocalizerModule`
(modules/image_localizer.py): a line with an external image yields
`EXPAND` for a file not named `index.md` and
`TAG_WITH_PREPROCESS_AND_POSTPROCESS` otherwise.  Used as a concrete
input for witnesses and counterexamples. -/
def demoModule : ModuleSpec :=
  { name := "image_localizer",
    regexMatch := fun _ => true,
    probe := fun fp _ _ =>
      if FPath.name fp = "index.md" then
        (Action.TAG_WITH_PREPROCESS_AND_POSTPROCESS, demoMeta)
      else (Action.EXPAND, demoMeta),
    postprocess := fun _ _ l _ => l }

/-- Fresh state of the demo detector. -/
def demoModuleState : ModuleState := ⟨demoModule, [], []⟩

/-- A second concrete detector that tags every line for post-processing
only. -/
def demoTagModule : ModuleSpec :=
  { name := "tagger",
    regexMatch := fun _ => true,
    probe := fun _ _ _ => (Action.TAG, { extra := 7 }),
    postprocess := fun _ _ l _ => l ++ "!" }

/-- Fresh state of the tagging demo detector. -/
def demoTagModuleState : ModuleState := ⟨demoTagModule, [], []⟩

/-- The document `content/a.md` used in concrete scenarios. -/
def aMd : FPath := ⟨["content"], "a", ".md"⟩

/-- A one-document corpus containing one external-image line. -/
def demoFs : Fs :=
  fun p => if p = aMd then some ["![x](https://example.com/i.png)"] else none

/-- Preprocess oracle that always succeeds. -/
def demoOracle : PreOracle := fun _ _ => PreOutcome.ok

/-- Write outcome oracle with no I/O failures. -/
def demoWo : FPath → WriteOutcome := fun _ => WriteOutcome.ok

/-- A detector whose coarse regex never matches (so its probe is never
consulted). -/
def demoNeverModuleState : ModuleState :=
  ⟨⟨"never", fun _ => false, fun _ _ _ => (Action.TAG, {}),
    fun _ _ l _ => l⟩, [], []⟩

/-- The document `content/b.md` with plain content, drawing no probe. -/
def bMd : FPath := ⟨["content"], "b", ".md"⟩

/-- A filesystem with one plain document. -/
def plainFs : Fs := fun p => if p = bMd then some ["plain"] else none

/-- A job with no URL in its metadata (rate-limited under `"__local__"`). -/
def poolJob : Job := ⟨⟨["content"], "a", ".md"⟩, 0, "x", "tagger", {}⟩

/-- A netloc collaborator that extracts no authority. -/
def poolNetloc : String → String := fun _ => ""

/-- Concrete pool run: initial state, two threads, delay 1. -/
def poolS0 : PoolState := initPool (fun _ => poolJob) 0

/-- Thread 0 acquires the `"__local__"` lock. -/
def poolS1 : PoolState :=
  ⟨poolS0.now, poolS0.lastReq,
   supd poolS0.lockHeld ((poolS0.threads 0).domain poolNetloc) true,
   updThread poolS0.threads 0 Phase.locked⟩

/-- Thread 0 starts `preprocess` at time 0. -/
def poolS2 : PoolState :=
  ⟨poolS1.now, poolS1.lastReq, poolS1.lockHeld,
   updThread poolS1.threads 0 (Phase.running poolS1.now)⟩

/-- Thread 0 finishes, records the timestamp, releases the lock. -/
def poolS3 : PoolState :=
  ⟨poolS2.now,
   supd poolS2.lastReq ((poolS2.threads 0).domain poolNetloc)
     (some poolS2.now),
   supd poolS2.lockHeld ((poolS2.threads 0).domain poolNetloc) false,
   updThread poolS2.threads 0 (Phase.finished poolS1.now poolS2.now)⟩

/-- The clock advances by the configured interval. -/
def poolS4 : PoolState :=
  ⟨poolS3.now + 1, poolS3.lastReq, poolS3.lockHeld, poolS3.threads⟩

/-- Thread 1 acquires the now-free lock. -/
def poolS5 : PoolState :=
  ⟨poolS4.now, poolS4.lastReq,
   supd poolS4.lockHeld ((poolS4.threads 1).domain poolNetloc) true,
   updThread poolS4.threads 1 Phase.locked⟩

/-- Thread 1 starts once the pacing wait is satisfied. -/
def poolS6 : PoolState :=
  ⟨poolS5.now, poolS5.lastReq, poolS5.lockHeld,
   updThread poolS5.threads 1 (Phase.running poolS5.now)⟩

/-- Thread 1 finishes. -/
def poolS7 : PoolState :=
  ⟨poolS6.now,
   supd poolS6.lastReq ((poolS6.threads 1).domain poolNetloc)
     (some poolS6.now),
   supd poolS6.lockHeld ((poolS6.threads 1).domain poolNetloc) false,
   updThread poolS6.threads 1 (Phase.finished poolS5.now poolS6.now)⟩

theorem supd_same {β : Type} (f : String → β) (k : String) (v : β) :
    supd f k v k = v := by
  simp [supd]

theorem supd_other {β : Type} (f : String → β) (k : String) (v : β)
    (k' : String) (h : k' ≠ k) : supd f k v k' = f k' := by
  simp [supd, h]

theorem updThread_self (ts : Nat → Thread) (i : Nat) (ph : Phase) :
    updThread ts i ph i = { ts i with phase := ph } := by
  simp [updThread]

theorem updThread_other (ts : Nat → Thread) (i : Nat) (ph : Phase)
    (j : Nat) (h : j ≠ i) : updThread ts i ph j = ts j := by
  simp [updThread, h]

theorem updThread_domain (netloc : String → String) (ts : Nat → Thread)
    (i : Nat) (ph : Phase) (j : Nat) :
    ((updThread ts i ph) j).domain netloc = (ts j).domain netloc := by
  by_cases h : j = i
  · subst h; rw [updThread_self]; rfl
  · rw [updThread_other _ _ _ _ h]

theorem poolInv_init (netloc : String → String) (delay : ℚ)
    (jobs : Nat → Job) (n0 : ℚ) :
    PoolInv netloc delay (initPool jobs n0) := by
  constructor <;>
    simp [initPool, activeTh]

theorem poolInv_step {netloc : String → String} {delay : ℚ}
    {s s' : PoolState} (hinv : PoolInv netloc delay s)
    (hstep : Step netloc delay s s') : PoolInv netloc delay s' := by
  cases hstep with
  | tick t ht hnow hlast hlock hthreads =>
      refine ⟨?_, ?_, ?_, ?_, ?_, ?_, ?_, ?_, ?_⟩ <;>
        simp only [activeTh, hnow, hlast, hlock, hthreads]
      · intro i st h
        have := hinv.run_le i st h
        linarith
      · intro i st f h
        obtain ⟨h1, h2⟩ := hinv.fin_le i st f h
        exact ⟨h1, by linarith⟩
      · exact fun i h => hinv.act_lock i h
      · exact fun i j hi hj => hinv.act_uniq i j hi hj
      · intro d u h
        have := hinv.last_le d u h
        linarith
      · exact hinv.fin_last
      · exact hinv.run_gap
      · exact hinv.fin_fin
      · exact hinv.run_fin
  | acquire i hidle hfree hnow hlast hlock hthreads =>
      have hdomj : ∀ j, (s'.threads j).domain netloc =
          (s.threads j).domain netloc := by
        intro j; rw [hthreads]; exact updThread_domain _ _ _ _ _
      have hph : ∀ j, j ≠ i → (s'.threads j).phase = (s.threads j).phase := by
        intro j hj; rw [hthreads, updThread_other _ _ _ _ hj]
      have hphi : (s'.threads i).phase = Phase.locked := by
        rw [hthreads, updThread_self]
      have hact : ∀ j, activeTh s' j → j = i ∨ activeTh s j := by
        intro j hj
        by_cases hji : j = i
        · exact Or.inl hji
        · refine Or.inr ?_
          unfold activeTh at hj ⊢
          rwa [hph j hji] at hj
      refine ⟨?_, ?_, ?_, ?_, ?_, ?_, ?_, ?_, ?_⟩
      · intro j st h
        by_cases hj : j = i
        · subst hj; rw [hphi] at h; exact absurd h (by simp)
        · rw [hph j hj] at h
          rw [hnow]
          exact hinv.run_le j st h
      · intro j st f h
        by_cases hj : j = i
        · subst hj; rw [hphi] at h; exact absurd h (by simp)
        · rw [hph j hj] at h
          rw [hnow]
          exact hinv.fin_le j st f h
      · intro j hj
        rw [hlock, hdomj j]
        by_cases hd : (s.threads j).domain netloc =
            (s.threads i).domain netloc
        · rw [hd]; exact supd_same _ _ _
        · rw [supd_other _ _ _ _ hd]
          rcases hact j hj with hji | hja
          · subst hji; exact absurd rfl hd
          · exact hinv.act_lock j hja
      · intro j k hj hk hdjk
        rw [hdomj j, hdomj k] at hdjk
        rcases hact j hj with hji | hja <;> rcases hact k hk with hki | hka
        · omega
        · exfalso
          have := hinv.act_lock k hka
          rw [← hdjk, hji] at this
          rw [this] at hfree
          exact absurd hfree (by simp)
        · exfalso
          have := hinv.act_lock j hja
          rw [hdjk, hki] at this
          rw [this] at hfree
          exact absurd hfree (by simp)
        · exact hinv.act_uniq j k hja hka hdjk
      · intro d u h
        rw [hlast] at h
        rw [hnow]
        exact hinv.last_le d u h
      · intro j st f h
        by_cases hj : j = i
        · subst hj; rw [hphi] at h; exact absurd h (by simp)
        · rw [hph j hj] at h
          rw [hlast, hdomj j]
          exact hinv.fin_last j st f h
      · intro j st h
        by_cases hj : j = i
        · subst hj; rw [hphi] at h; exact absurd h (by simp)
        · rw [hph j hj] at h
          rw [hlast, hdomj j]
          exact hinv.run_gap j st h
      · intro j k stj fj stk fk hjk hdjk hfj hfk
        rw [hdomj j, hdomj k] at hdjk
        by_cases hj : j = i
        · subst hj; rw [hphi] at hfj; exact absurd hfj (by simp)
        · by_cases hk : k = i
          · subst hk; rw [hphi] at hfk; exact absurd hfk (by simp)
          · rw [hph j hj] at hfj
            rw [hph k hk] at hfk
            exact hinv.fin_fin j k stj fj stk fk hjk hdjk hfj hfk
      · intro j st k stk fk hrj hjk hdjk hfk
        rw [hdomj j, hdomj k] at hdjk
        by_cases hj : j = i
        · subst hj; rw [hphi] at hrj; exact absurd hrj (by simp)
        · by_cases hk : k = i
          · subst hk; rw [hphi] at hfk; exact absurd hfk (by simp)
          · rw [hph j hj] at hrj
            rw [hph k hk] at hfk
            exact hinv.run_fin j st k stk fk hrj hjk hdjk hfk
  | start i hlocked hwait hnow hlast hlock hthreads =>
      have hdomj : ∀ j, (s'.threads j).domain netloc =
          (s.threads j).domain netloc := by
        intro j; rw [hthreads]; exact updThread_domain _ _ _ _ _
      have hph : ∀ j, j ≠ i → (s'.threads j).phase = (s.threads j).phase := by
        intro j hj; rw [hthreads, updThread_other _ _ _ _ hj]
      have hphi : (s'.threads i).phase = Phase.running s.now := by
        rw [hthreads, updThread_self]
      have hact : ∀ j, activeTh s' j → activeTh s j := by
        intro j hj
        by_cases hji : j = i
        · subst hji; exact Or.inl hlocked
        · unfold activeTh at hj ⊢
          rwa [hph j hji] at hj
      refine ⟨?_, ?_, ?_, ?_, ?_, ?_, ?_, ?_, ?_⟩
      · intro j st h
        rw [hnow]
        by_cases hj : j = i
        · subst hj; rw [hphi] at h
          cases h
          exact le_refl _
        · rw [hph j hj] at h
          exact hinv.run_le j st h
      · intro j st f h
        rw [hnow]
        by_cases hj : j = i
        · subst hj; rw [hphi] at h; exact absurd h (by simp)
        · rw [hph j hj] at h
          exact hinv.fin_le j st f h
      · intro j hj
        rw [hlock, hdomj j]
        exact hinv.act_lock j (hact j hj)
      · intro j k hj hk hdjk
        rw [hdomj j, hdomj k] at hdjk
        by_cases hji : j = i
        · by_cases hki : k = i
          · omega
          · subst hji
            exact (hinv.act_uniq j k (Or.inl hlocked) (hact k hk) hdjk)
        · by_cases hki : k = i
          · subst hki
            exact (hinv.act_uniq j k (hact j hj) (Or.inl hlocked) hdjk)
          · exact hinv.act_uniq j k (hact j hj) (hact k hk) hdjk
      · intro d u h
        rw [hlast] at h
        rw [hnow]
        exact hinv.last_le d u h
      · intro j st f h
        by_cases hj : j = i
        · subst hj; rw [hphi] at h; exact absurd h (by simp)
        · rw [hph j hj] at h
          rw [hlast, hdomj j]
          exact hinv.fin_last j st f h
      · intro j st h
        rw [hlast, hdomj j]
        by_cases hj : j = i
        · subst hj; rw [hphi] at h
          cases h
          exact hwait
        · rw [hph j hj] at h
          exact hinv.run_gap j st h
      · intro j k stj fj stk fk hjk hdjk hfj hfk
        rw [hdomj j, hdomj k] at hdjk
        by_cases hj : j = i
        · subst hj; rw [hphi] at hfj; exact absurd hfj (by simp)
        · by_cases hk : k = i
          · subst hk; rw [hphi] at hfk; exact absurd hfk (by simp)
          · rw [hph j hj] at hfj
            rw [hph k hk] at hfk
            exact hinv.fin_fin j k stj fj stk fk hjk hdjk hfj hfk
      · intro j st k stk fk hrj hjk hdjk hfk
        rw [hdomj j, hdomj k] at hdjk
        by_cases hk : k = i
        · subst hk; rw [hphi] at hfk; exact absurd hfk (by simp)
        · rw [hph k hk] at hfk
          by_cases hj : j = i
          · subst hj
            rw [hphi] at hrj
            cases hrj
            obtain ⟨t, hlt, hft⟩ := hinv.fin_last k stk fk hfk
            rw [← hdjk] at hlt
            have := hwait t hlt
            linarith
          · rw [hph j hj] at hrj
            exact hinv.run_fin j st k stk fk hrj hjk hdjk hfk
  | finish i st hrun hnow hlast hlock hthreads =>
      have hdomj : ∀ j, (s'.threads j).domain netloc =
          (s.threads j).domain netloc := by
        intro j; rw [hthreads]; exact updThread_domain _ _ _ _ _
      have hph : ∀ j, j ≠ i → (s'.threads j).phase = (s.threads j).phase := by
        intro j hj; rw [hthreads, updThread_other _ _ _ _ hj]
      have hphi : (s'.threads i).phase = Phase.finished st s.now := by
        rw [hthreads, updThread_self]
      have hiact : activeTh s i := Or.inr ⟨st, hrun⟩
      have hact : ∀ j, activeTh s' j → j ≠ i ∧ activeTh s j := by
        intro j hj
        by_cases hji : j = i
        · subst hji
          exfalso
          rcases hj with h | ⟨stj, h⟩
          · rw [hphi] at h; exact absurd h (by simp)
          · rw [hphi] at h; exact absurd h (by simp)
        · refine ⟨hji, ?_⟩
          unfold activeTh at hj ⊢
          rwa [hph j hji] at hj
      refine ⟨?_, ?_, ?_, ?_, ?_, ?_, ?_, ?_, ?_⟩
      · intro j stj h
        rw [hnow]
        by_cases hj : j = i
        · subst hj; rw [hphi] at h; exact absurd h (by simp)
        · rw [hph j hj] at h
          exact hinv.run_le j stj h
      · intro j stj fj h
        rw [hnow]
        by_cases hj : j = i
        · subst hj; rw [hphi] at h
          cases h
          exact ⟨hinv.run_le j st hrun, le_refl _⟩
        · rw [hph j hj] at h
          exact hinv.fin_le j stj fj h
      · intro j hj
        obtain ⟨hji, hja⟩ := hact j hj
        rw [hlock, hdomj j]
        by_cases hd : (s.threads j).domain netloc =
            (s.threads i).domain netloc
        · exact absurd (hinv.act_uniq j i hja hiact hd) hji
        · rw [supd_other _ _ _ _ hd]
          exact hinv.act_lock j hja
      · intro j k hj hk hdjk
        rw [hdomj j, hdomj k] at hdjk
        exact hinv.act_uniq j k (hact j hj).2 (hact k hk).2 hdjk
      · intro d u h
        rw [hlast] at h
        rw [hnow]
        by_cases hd : d = (s.threads i).domain netloc
        · subst hd
          rw [supd_same] at h
          cases h
          exact le_refl _
        · rw [supd_other _ _ _ _ hd] at h
          exact hinv.last_le d u h
      · intro j stj fj h
        rw [hlast, hdomj j]
        by_cases hj : j = i
        · subst hj; rw [hphi] at h
          cases h
          exact ⟨s.now, supd_same _ _ _, le_refl _⟩
        · rw [hph j hj] at h
          by_cases hd : (s.threads j).domain netloc =
              (s.threads i).domain netloc
          · rw [hd]
            exact ⟨s.now, supd_same _ _ _, (hinv.fin_le j stj fj h).2⟩
          · obtain ⟨t, hlt, hft⟩ := hinv.fin_last j stj fj h
            exact ⟨t, by rw [supd_other _ _ _ _ hd]; exact hlt, hft⟩
      · intro j stj h
        rw [hlast, hdomj j]
        by_cases hj : j = i
        · subst hj; rw [hphi] at h; exact absurd h (by simp)
        · rw [hph j hj] at h
          by_cases hd : (s.threads j).domain netloc =
              (s.threads i).domain netloc
          · exact absurd (hinv.act_uniq j i (Or.inr ⟨stj, h⟩) hiact hd) hj
          · intro t ht
            rw [supd_other _ _ _ _ hd] at ht
            exact hinv.run_gap j stj h t ht
      · intro j k stj fj stk fk hjk hdjk hfj hfk
        rw [hdomj j, hdomj k] at hdjk
        by_cases hj : j = i
        · subst hj
          rw [hphi] at hfj
          cases hfj
          have hk : k ≠ j := fun h => hjk h.symm
          rw [hph k hk] at hfk
          exact Or.inr (hinv.run_fin j st k stk fk hrun hjk hdjk hfk)
        · rw [hph j hj] at hfj
          by_cases hk : k = i
          · subst hk
            rw [hphi] at hfk
            cases hfk
            exact Or.inl
              (hinv.run_fin k st j stj fj hrun (fun h => hj h.symm) hdjk.symm hfj)
          · rw [hph k hk] at hfk
            exact hinv.fin_fin j k stj fj stk fk hjk hdjk hfj hfk
      · intro j stj k stk fk hrj hjk hdjk hfk
        rw [hdomj j, hdomj k] at hdjk
        by_cases hj : j = i
        · subst hj; rw [hphi] at hrj; exact absurd hrj (by simp)
        · rw [hph j hj] at hrj
          by_cases hk : k = i
          · subst hk
            exact absurd (hinv.act_uniq j k (Or.inr ⟨stj, hrj⟩) hiact hdjk) hj
          · rw [hph k hk] at hfk
            exact hinv.run_fin j stj k stk fk hrj hjk hdjk hfk

theorem poolInv_reachable {netloc : String → String} {delay : ℚ}
    {jobs : Nat → Job} {n0 : ℚ} {s : PoolState}
    (h : PoolReachable netloc delay jobs n0 s) :
    PoolInv netloc delay s := by
  induction h with
  | refl => exact poolInv_init netloc delay jobs n0
  | tail _ hstep ih => exact poolInv_step ih hstep


theorem allJobs_cons (m : ModuleState) (ms : List ModuleState) :
    allJobs (m :: ms) = m.jobs ++ allJobs ms := rfl

theorem allPPs_cons (m : ModuleState) (ms : List ModuleState) :
    allPPs (m :: ms) = m.postprocess_lines ++ allPPs ms := rfl

theorem scanOneModule_spec (fp : FPath) (ln : Nat) (line : String)
    (m : ModuleState) : (scanOneModule fp ln line m).1.spec = m.spec := by
  unfold scanOneModule
  split
  · split <;> rfl
  · rfl

theorem scanOneModule_jobs (fp : FPath) (ln : Nat) (line : String)
    (m : ModuleState) :
    ∀ j ∈ (scanOneModule fp ln line m).1.jobs,
      j ∈ m.jobs ∨ j.file_path = fp := by
  intro j hj
  unfold scanOneModule at hj
  revert hj
  split
  · split <;> intro hj <;> simp at hj <;>
      first
        | exact Or.inl hj
        | (rcases hj with hj | hj
           · exact Or.inl hj
           · exact Or.inr (by rw [hj]))
  · intro hj; exact Or.inl hj

theorem scanOneModule_pps (fp : FPath) (ln : Nat) (line : String)
    (m : ModuleState) :
    ∀ pp ∈ (scanOneModule fp ln line m).1.postprocess_lines,
      pp ∈ m.postprocess_lines ∨ pp.file_path = fp := by
  intro pp hpp
  unfold scanOneModule at hpp
  revert hpp
  split
  · split <;> intro hpp <;> simp at hpp <;>
      first
        | exact Or.inl hpp
        | (rcases hpp with hpp | hpp
           · exact Or.inl hpp
           · exact Or.inr (by rw [hpp]))
  · intro hpp; exact Or.inl hpp

theorem scanModulesOnLine_spec (fp : FPath) (ln : Nat) (line : String)
    (ms : List ModuleState) :
    (scanModulesOnLine fp ln line ms).1.map ModuleState.spec =
      ms.map ModuleState.spec := by
  induction ms with
  | nil => rfl
  | cons m rest ih =>
      simp only [scanModulesOnLine, List.map_cons]
      rw [scanOneModule_spec, ih]

theorem scanModulesOnLine_jobs (fp : FPath) (ln : Nat) (line : String)
    (ms : List ModuleState) :
    ∀ j ∈ allJobs (scanModulesOnLine fp ln line ms).1,
      j ∈ allJobs ms ∨ j.file_path = fp := by
  induction ms with
  | nil => intro j hj; exact Or.inl hj
  | cons m rest ih =>
      intro j hj
      simp only [scanModulesOnLine, allJobs_cons, List.mem_append] at hj
      rcases hj with hj | hj
      · rcases scanOneModule_jobs fp ln line m j hj with h | h
        · exact Or.inl (by rw [allJobs_cons]; exact List.mem_append_left _ h)
        · exact Or.inr h
      · rcases ih j hj with h | h
        · exact Or.inl (by rw [allJobs_cons]; exact List.mem_append_right _ h)
        · exact Or.inr h

theorem scanModulesOnLine_pps (fp : FPath) (ln : Nat) (line : String)
    (ms : List ModuleState) :
    ∀ pp ∈ allPPs (scanModulesOnLine fp ln line ms).1,
      pp ∈ allPPs ms ∨ pp.file_path = fp := by
  induction ms with
  | nil => intro pp hpp; exact Or.inl hpp
  | cons m rest ih =>
      intro pp hpp
      simp only [scanModulesOnLine, allPPs_cons, List.mem_append] at hpp
      rcases hpp with hpp | hpp
      · rcases scanOneModule_pps fp ln line m pp hpp with h | h
        · exact Or.inl (by rw [allPPs_cons]; exact List.mem_append_left _ h)
        · exact Or.inr h
      · rcases ih pp hpp with h | h
        · exact Or.inl (by rw [allPPs_cons]; exact List.mem_append_right _ h)
        · exact Or.inr h

theorem scanLinesFrom_spec (fp : FPath) (ln : Nat) (ls : List String)
    (ms : List ModuleState) :
    (scanLinesFrom fp ln ls ms).1.map ModuleState.spec =
      ms.map ModuleState.spec := by
  induction ls generalizing ln ms with
  | nil => rfl
  | cons l rest ih =>
      simp only [scanLinesFrom]
      rw [ih, scanModulesOnLine_spec]

theorem scanLinesFrom_jobs (fp : FPath) (ln : Nat) (ls : List String)
    (ms : List ModuleState) :
    ∀ j ∈ allJobs (scanLinesFrom fp ln ls ms).1,
      j ∈ allJobs ms ∨ j.file_path = fp := by
  induction ls generalizing ln ms with
  | nil => intro j hj; exact Or.inl hj
  | cons l rest ih =>
      intro j hj
      simp only [scanLinesFrom] at hj
      rcases ih (ln + 1) (scanModulesOnLine fp ln l ms).1 j hj with h | h
      · exact scanModulesOnLine_jobs fp ln l ms j h
      · exact Or.inr h

theorem scanLinesFrom_pps (fp : FPath) (ln : Nat) (ls : List String)
    (ms : List ModuleState) :
    ∀ pp ∈ allPPs (scanLinesFrom fp ln ls ms).1,
      pp ∈ allPPs ms ∨ pp.file_path = fp := by
  induction ls generalizing ln ms with
  | nil => intro pp hpp; exact Or.inl hpp
  | cons l rest ih =>
      intro pp hpp
      simp only [scanLinesFrom] at hpp
      rcases ih (ln + 1) (scanModulesOnLine fp ln l ms).1 pp hpp with h | h
      · exact scanModulesOnLine_pps fp ln l ms pp h
      · exact Or.inr h


/-- Exhaustive characterization of `process_file`: the seven control-flow
outcomes (skip, read error, no expansion, already-canonical warning,
dry-run expansion intent, failed move, successful expansion). -/
theorem process_file_char (fs : Fs) (st : ProcState) (fp : FPath) :
    (fp ∈ st.expanded_files ∧
      process_file fs st fp = (st, fs, [Event.skippedExpanded fp])) ∨
    (fp ∉ st.expanded_files ∧ fs fp = none ∧
      process_file fs st fp = (st, fs, [Event.readError fp])) ∨
    (∃ lines, fp ∉ st.expanded_files ∧ fs fp = some lines ∧
      (scanLinesFrom fp 0 lines st.modules).2 = false ∧
      process_file fs st fp =
        ({ st with modules := (scanLinesFrom fp 0 lines st.modules).1 }, fs,
         [Event.scanned fp])) ∨
    (∃ lines, fp ∉ st.expanded_files ∧ fs fp = some lines ∧
      (scanLinesFrom fp 0 lines st.modules).2 = true ∧
      fp.name = "index.md" ∧
      process_file fs st fp =
        ({ st with modules := (scanLinesFrom fp 0 lines st.modules).1 }, fs,
         [Event.scanned fp, Event.warnAlreadyIndex fp])) ∨
    (∃ lines, fp ∉ st.expanded_files ∧ fs fp = some lines ∧
      (scanLinesFrom fp 0 lines st.modules).2 = true ∧
      fp.name ≠ "index.md" ∧ st.dry_run = true ∧
      process_file fs st fp =
        ({ st with modules := (scanLinesFrom fp 0 lines st.modules).1 }, fs,
         [Event.scanned fp, Event.dryRunExpand fp (expandTarget fp)])) ∨
    (∃ lines content, fp ∉ st.expanded_files ∧ fs fp = some lines ∧
      (scanLinesFrom fp 0 lines st.modules).2 = true ∧
      fp.name ≠ "index.md" ∧ st.dry_run = false ∧
      fs (expandTarget fp) = some content ∧
      process_file fs st fp =
        ({ st with modules := (scanLinesFrom fp 0 lines st.modules).1 }, fs,
         [Event.scanned fp, Event.expandError fp])) ∨
    (∃ lines, fp ∉ st.expanded_files ∧ fs fp = some lines ∧
      (scanLinesFrom fp 0 lines st.modules).2 = true ∧
      fp.name ≠ "index.md" ∧ st.dry_run = false ∧
      fs (expandTarget fp) = none ∧
      process_file fs st fp =
        ({ st with
            modules :=
              ((scanLinesFrom fp 0 lines st.modules).1).map (purge fp),
            expanded_files := st.expanded_files ++ [fp],
            files_to_process :=
              st.files_to_process ++ [expandTarget fp] },
         fsUpd (fsUpd fs (expandTarget fp) (some lines)) fp none,
         [Event.scanned fp, Event.expandedEv fp (expandTarget fp)])) := by
  by_cases hmem : fp ∈ st.expanded_files
  · exact Or.inl ⟨hmem, by simp [process_file, hmem]⟩
  · rcases hread : fs fp with _ | lines
    · exact Or.inr (Or.inl ⟨hmem, rfl,
        by simp [process_file, hmem, hread]⟩)
    · rcases hscan : (scanLinesFrom fp 0 lines st.modules).2 with _ | _
      · refine Or.inr (Or.inr (Or.inl ⟨lines, hmem, rfl, hscan, ?_⟩))
        simp [process_file, hmem, hread, hscan]
      · by_cases hname : fp.name = "index.md"
        · refine Or.inr (Or.inr (Or.inr (Or.inl
            ⟨lines, hmem, rfl, hscan, hname, ?_⟩)))
          simp [process_file, hmem, hread, hscan, expand_file, hname]
        · rcases hdry : st.dry_run with _ | _
          · rcases htgt : fs (expandTarget fp) with _ | content
            · refine Or.inr (Or.inr (Or.inr (Or.inr (Or.inr (Or.inr
                ⟨lines, hmem, rfl, hscan, hname, rfl, rfl, ?_⟩)))))
              simp [process_file, hmem, hread, hscan, expand_file, hname,
                hdry, htgt]
            · refine Or.inr (Or.inr (Or.inr (Or.inr (Or.inr (Or.inl
                ⟨lines, content, hmem, rfl, hscan, hname, rfl,
                 rfl, ?_⟩)))))
              simp [process_file, hmem, hread, hscan, expand_file, hname,
                hdry, htgt]
          · refine Or.inr (Or.inr (Or.inr (Or.inr (Or.inl
              ⟨lines, hmem, rfl, hscan, hname, rfl, ?_⟩))))
            simp [process_file, hmem, hread, hscan, expand_file, hname,
              hdry]


theorem extraOf_append (a b : List Event) :
    extraOf (a ++ b) = extraOf a ++ extraOf b := by
  simp [extraOf]

theorem process_file_queue (fs : Fs) (st : ProcState) (fp : FPath) :
    (process_file fs st fp).1.files_to_process =
      st.files_to_process ++ extraOf (process_file fs st fp).2.2 ∧
    (extraOf (process_file fs st fp).2.2 = [] ∨
      (extraOf (process_file fs st fp).2.2 = [expandTarget fp] ∧
        fp.name ≠ "index.md")) := by
  rcases process_file_char fs st fp with ⟨_, h⟩ | ⟨_, _, h⟩
    | ⟨_, _, _, _, h⟩ | ⟨_, _, _, _, _, h⟩ | ⟨_, _, _, _, _, _, h⟩
    | ⟨_, _, _, _, _, _, _, _, h⟩ | ⟨_, _, _, _, hname, _, _, h⟩ <;>
    rw [h] <;> simp [extraOf]
  exact hname

theorem process_file_events_scan (fs : Fs) (st : ProcState) (fp : FPath) :
    ∀ e ∈ (process_file fs st fp).2.2, isScanEv e = true := by
  rcases process_file_char fs st fp with ⟨_, h⟩ | ⟨_, _, h⟩
    | ⟨_, _, _, _, h⟩ | ⟨_, _, _, _, _, h⟩ | ⟨_, _, _, _, _, _, h⟩
    | ⟨_, _, _, _, _, _, _, _, h⟩ | ⟨_, _, _, _, _, _, _, h⟩ <;>
    rw [h] <;> intro e he <;> simp at he <;>
    first
      | (rw [he]; rfl)
      | (rcases he with he | he <;> rw [he] <;> rfl)

theorem queueWt_pos (fp : FPath) : 1 ≤ queueWt fp := by
  unfold queueWt
  split <;> omega

theorem queueMeasure_nil : queueMeasure [] = 0 := rfl

theorem queueMeasure_cons (fp : FPath) (q : List FPath) :
    queueMeasure (fp :: q) = queueWt fp + queueMeasure q := by
  simp [queueMeasure]

theorem queueMeasure_append (q1 q2 : List FPath) :
    queueMeasure (q1 ++ q2) = queueMeasure q1 + queueMeasure q2 := by
  simp [queueMeasure]

theorem expandTarget_name (fp : FPath) :
    (expandTarget fp).name = "index.md" := by
  show "index" ++ ".md" = "index.md"
  decide

theorem scanSteps_pops_queue (fuel : Nat) (fs : Fs) (st : ProcState) :
    (scanSteps fuel fs st).pops ++
        (scanSteps fuel fs st).st.files_to_process =
      st.files_to_process ++ extraOf (scanSteps fuel fs st).events := by
  induction fuel generalizing fs st with
  | zero => simp [scanSteps, extraOf]
  | succ n ih =>
      cases hq : st.files_to_process with
      | nil => simp [scanSteps, hq, extraOf]
      | cons fp rest =>
          simp only [scanSteps, hq]
          obtain ⟨h1, _⟩ :=
            process_file_queue fs { st with files_to_process := rest } fp
          have ihx := ih (process_file fs
            { st with files_to_process := rest } fp).2.1
            (process_file fs { st with files_to_process := rest } fp).1
          rw [h1] at ihx
          rw [extraOf_append]
          simp only [List.cons_append]
          rw [ihx]
          simp

theorem scanSteps_drain (fuel : Nat) (fs : Fs) (st : ProcState)
    (h : queueMeasure st.files_to_process ≤ fuel) :
    (scanSteps fuel fs st).st.files_to_process = [] := by
  induction fuel generalizing fs st with
  | zero =>
      cases hq : st.files_to_process with
      | nil => simp [scanSteps, hq]
      | cons fp rest =>
          exfalso
          rw [hq, queueMeasure_cons] at h
          have := queueWt_pos fp
          omega
  | succ n ih =>
      cases hq : st.files_to_process with
      | nil => simp [scanSteps, hq]
      | cons fp rest =>
          simp only [scanSteps, hq]
          apply ih
          obtain ⟨h1, h2⟩ :=
            process_file_queue fs { st with files_to_process := rest } fp
          rw [h1]
          rw [hq, queueMeasure_cons] at h
          rcases h2 with h2 | ⟨h2, hname⟩
          · rw [h2]
            have := queueWt_pos fp
            simp [queueMeasure_append]
            omega
          · rw [h2, queueMeasure_append, queueMeasure_cons]
            have hwt : queueWt fp = 2 := by
              unfold queueWt
              simp [hname]
            have hwt2 : queueWt (expandTarget fp) = 1 := by
              unfold queueWt
              simp [expandTarget_name]
            rw [hwt2]
            simp [queueMeasure_nil]
            omega

theorem queueMeasure_le_scanFuel (files : List FPath) :
    queueMeasure files ≤ scanFuel files := by
  induction files with
  | nil => simp [queueMeasure_nil, scanFuel]
  | cons fp rest ih =>
      rw [queueMeasure_cons]
      unfold scanFuel at ih ⊢
      have : queueWt fp ≤ 2 := by
        unfold queueWt
        split <;> omega
      simp only [List.length_cons]
      omega

theorem scanSteps_events_scan (fuel : Nat) (fs : Fs) (st : ProcState) :
    ∀ e ∈ (scanSteps fuel fs st).events, isScanEv e = true := by
  induction fuel generalizing fs st with
  | zero => intro e he; simp [scanSteps] at he
  | succ n ih =>
      cases hq : st.files_to_process with
      | nil => intro e he; simp [scanSteps, hq] at he
      | cons fp rest =>
          intro e he
          simp only [scanSteps, hq, List.mem_append] at he
          rcases he with he | he
          · exact process_file_events_scan fs
              { st with files_to_process := rest } fp e he
          · exact ih _ _ e he

theorem run_preprocessing_events_pre (pre : PreOracle) (dry : Bool)
    (modules : List ModuleState) :
    ∀ e ∈ (run_preprocessing pre dry modules).events, isPreEv e = true := by
  unfold run_preprocessing
  cases dry with
  | true =>
      intro e he
      simp at he
      obtain ⟨x, y, _, he⟩ := he
      rw [← he]
      rfl
  | false =>
      simp only [Bool.false_eq_true, if_false]
      have : ∀ (jobs : List (String × Job)) (acc : PreOut),
          (∀ e ∈ acc.events, isPreEv e = true) →
          ∀ e ∈ (jobs.foldl (fun acc x =>
            match pre x.1 x.2 with
            | PreOutcome.ok =>
                ⟨acc.completed + 1, acc.failed,
                 acc.events ++ [Event.preprocessRun x.2]⟩
            | PreOutcome.failed =>
                ⟨acc.completed, acc.failed + 1,
                 acc.events ++ [Event.preprocessRun x.2]⟩
            | PreOutcome.raised =>
                ⟨acc.completed, acc.failed + 1,
                 acc.events ++ [Event.preprocessRun x.2,
                   Event.preprocessError x.2.file_path x.2.line_no]⟩) acc).events,
            isPreEv e = true := by
        intro jobs
        induction jobs with
        | nil => intro acc hacc e he; exact hacc e he
        | cons x rest ihj =>
            intro acc hacc e he
            simp only [List.foldl_cons] at he
            revert he
            rcases pre x.1 x.2 <;>
              (intro he
               refine ihj _ ?_ e he
               intro e2 he2
               simp only [List.mem_append] at he2
               rcases he2 with he2 | he2
               · exact hacc e2 he2
               · simp at he2
                 first
                   | (rw [he2]; rfl)
                   | (rcases he2 with he2 | he2 <;> rw [he2] <;> rfl))
      intro e he
      exact this _ _ (by intro e2 he2; simp at he2) e he

theorem postprocessOneLine_events (fp : FPath) (ln : Nat)
    (taggers : List (ModuleSpec × Metadata)) (l : String) :
    ∀ e ∈ (postprocessOneLine fp ln taggers l).2,
      ∃ name, e = Event.rewroteLine fp ln name := by
  unfold postprocessOneLine
  have : ∀ (ts : List (ModuleSpec × Metadata)) (acc : String × List Event),
      (∀ e ∈ acc.2, ∃ name, e = Event.rewroteLine fp ln name) →
      ∀ e ∈ (ts.foldl (fun acc t =>
          (t.1.postprocess fp ln acc.1 t.2,
           acc.2 ++ [Event.rewroteLine fp ln t.1.name])) acc).2,
        ∃ name, e = Event.rewroteLine fp ln name := by
    intro ts
    induction ts with
    | nil => intro acc hacc e he; exact hacc e he
    | cons t rest ih =>
        intro acc hacc e he
        simp only [List.foldl_cons] at he
        refine ih _ ?_ e he
        intro e2 he2
        simp only [List.mem_append] at he2
        rcases he2 with he2 | he2
        · exact hacc e2 he2
        · simp at he2
          exact ⟨t.1.name, he2⟩
  intro e he
  exact this taggers (l, []) (by intro e2 he2; simp at he2) e he

theorem rewriteLinesFrom_events (fp : FPath)
    (lm : List (Nat × List (ModuleSpec × Metadata))) (n : Nat)
    (ls : List String) :
    ∀ e ∈ (rewriteLinesFrom fp lm n ls).2,
      ∃ k name, e = Event.rewroteLine fp k name ∧ n ≤ k ∧
        k < n + ls.length := by
  induction ls generalizing n with
  | nil => intro e he; simp [rewriteLinesFrom] at he
  | cons l rest ih =>
      intro e he
      simp only [rewriteLinesFrom, List.mem_append] at he
      rcases he with he | he
      · revert he
        rcases hl : lookupEntry lm n with _ | taggers
        · intro he; simp at he
        · intro he
          obtain ⟨name, hname⟩ := postprocessOneLine_events fp n taggers l e he
          exact ⟨n, name, hname, le_refl n, by simp⟩
      · obtain ⟨k, name, hname, hk1, hk2⟩ := ih (n + 1) e he
        refine ⟨k, name, hname, by omega, by simp [List.length_cons]; omega⟩

theorem rewriteFileEff_events_post (wo : FPath → WriteOutcome) (fs : Fs)
    (fp : FPath) (tagged : List (ModuleSpec × PostprocessLine)) :
    ∀ e ∈ (rewriteFileEff wo fs fp tagged).2, isPostEv e = true := by
  unfold rewriteFileEff
  rcases fs fp with _ | lines
  · intro e he; simp at he; rw [he]; rfl
  · rcases wo fp with _ | k | _ <;>
      (intro e he
       simp only [List.mem_append] at he
       rcases he with he | he
       · obtain ⟨k2, name, hname, _, _⟩ :=
           rewriteLinesFrom_events fp (buildLineMap tagged) 0 lines e he
         rw [hname]; rfl
       · simp at he; rw [he]; rfl)

theorem run_postprocessing_events_post (wo : FPath → WriteOutcome)
    (dry : Bool) (fs : Fs) (modules : List ModuleState) :
    ∀ e ∈ (run_postprocessing wo dry fs modules).events,
      isPostEv e = true := by
  unfold run_postprocessing
  have : ∀ (groups : List (FPath × List (ModuleSpec × PostprocessLine)))
      (acc : PostOut), (∀ e ∈ acc.events, isPostEv e = true) →
      ∀ e ∈ (groups.foldl (fun acc g =>
          if dry then ⟨acc.fs, acc.events ++ [Event.dryRunPost g.1 g.2.length]⟩
          else
            let r := rewriteFileEff wo acc.fs g.1 g.2
            ⟨r.1, acc.events ++ r.2⟩) acc).events,
        isPostEv e = true := by
    intro groups
    induction groups with
    | nil => intro acc hacc e he; exact hacc e he
    | cons g rest ih =>
        intro acc hacc e he
        simp only [List.foldl_cons] at he
        revert he
        cases dry <;> simp only [if_true, if_false, Bool.false_eq_true] <;>
          (intro he
           refine ih _ ?_ e he
           intro e2 he2
           simp only [List.mem_append] at he2
           rcases he2 with he2 | he2
           · exact hacc e2 he2
           · first
               | (simp at he2; rw [he2]; rfl)
               | exact rewriteFileEff_events_post wo acc.fs g.1 g.2 e2 he2)
  intro e he
  exact this _ _ (by intro e2 he2; simp at he2) e he


theorem mem_allJobs_purge_map (fp : FPath) (ms : List ModuleState) :
    ∀ j ∈ allJobs (ms.map (purge fp)),
      j ∈ allJobs ms ∧ j.file_path ≠ fp := by
  induction ms with
  | nil => intro j hj; simp [allJobs] at hj
  | cons m rest ih =>
      intro j hj
      simp only [List.map_cons, allJobs_cons, List.mem_append] at hj
      rcases hj with hj | hj
      · simp only [purge, List.mem_filter] at hj
        refine ⟨by rw [allJobs_cons]; exact List.mem_append_left _ hj.1, ?_⟩
        have := hj.2
        simpa using this
      · obtain ⟨h1, h2⟩ := ih j hj
        exact ⟨by rw [allJobs_cons]; exact List.mem_append_right _ h1, h2⟩

theorem mem_allPPs_purge_map (fp : FPath) (ms : List ModuleState) :
    ∀ pp ∈ allPPs (ms.map (purge fp)),
      pp ∈ allPPs ms ∧ pp.file_path ≠ fp := by
  induction ms with
  | nil => intro pp hpp; simp [allPPs] at hpp
  | cons m rest ih =>
      intro pp hpp
      simp only [List.map_cons, allPPs_cons, List.mem_append] at hpp
      rcases hpp with hpp | hpp
      · simp only [purge, List.mem_filter] at hpp
        refine ⟨by rw [allPPs_cons]; exact List.mem_append_left _ hpp.1, ?_⟩
        have := hpp.2
        simpa using this
      · obtain ⟨h1, h2⟩ := ih pp hpp
        exact ⟨by rw [allPPs_cons]; exact List.mem_append_right _ h1, h2⟩

theorem process_file_expanded_char (fs : Fs) (st : ProcState) (fp nf : FPath)
    (h : Event.expandedEv fp nf ∈ (process_file fs st fp).2.2) :
    nf = expandTarget fp ∧
    fp ∈ (process_file fs st fp).1.expanded_files ∧
    (∀ j ∈ allJobs (process_file fs st fp).1.modules, j.file_path ≠ fp) ∧
    (∀ pp ∈ allPPs (process_file fs st fp).1.modules, pp.file_path ≠ fp) ∧
    (process_file fs st fp).1.files_to_process =
      st.files_to_process ++ [nf] := by
  rcases process_file_char fs st fp with ⟨_, hc⟩ | ⟨_, _, hc⟩
    | ⟨_, _, _, _, hc⟩ | ⟨_, _, _, _, _, hc⟩ | ⟨_, _, _, _, _, _, hc⟩
    | ⟨_, _, _, _, _, _, _, _, hc⟩ | ⟨lines, _, _, _, _, _, _, hc⟩ <;>
    rw [hc] at h ⊢ <;> simp at h
  subst h
  refine ⟨rfl, by simp, ?_, ?_, rfl⟩
  · intro j hj
    exact (mem_allJobs_purge_map fp _ j hj).2
  · intro pp hpp
    exact (mem_allPPs_purge_map fp _ pp hpp).2

theorem process_file_keeps_nofp (fs : Fs) (st : ProcState) (fp2 fp : FPath)
    (hexp : fp ∈ st.expanded_files)
    (hj : ∀ j ∈ allJobs st.modules, j.file_path ≠ fp)
    (hp : ∀ pp ∈ allPPs st.modules, pp.file_path ≠ fp) :
    fp ∈ (process_file fs st fp2).1.expanded_files ∧
    (∀ j ∈ allJobs (process_file fs st fp2).1.modules, j.file_path ≠ fp) ∧
    (∀ pp ∈ allPPs (process_file fs st fp2).1.modules,
      pp.file_path ≠ fp) := by
  have hne : fp2 ∉ st.expanded_files → fp2 ≠ fp := by
    intro hmem heq
    rw [heq] at hmem
    exact hmem hexp
  have hJ : ∀ lines : List String, fp2 ∉ st.expanded_files →
      ∀ j ∈ allJobs (scanLinesFrom fp2 0 lines st.modules).1,
        j.file_path ≠ fp := by
    intro lines hmem j hjm
    rcases scanLinesFrom_jobs fp2 0 lines st.modules j hjm with hh | hh
    · exact hj j hh
    · rw [hh]; exact hne hmem
  have hP : ∀ lines : List String, fp2 ∉ st.expanded_files →
      ∀ pp ∈ allPPs (scanLinesFrom fp2 0 lines st.modules).1,
        pp.file_path ≠ fp := by
    intro lines hmem pp hppm
    rcases scanLinesFrom_pps fp2 0 lines st.modules pp hppm with hh | hh
    · exact hp pp hh
    · rw [hh]; exact hne hmem
  rcases process_file_char fs st fp2 with ⟨_, hc⟩ | ⟨_, _, hc⟩
    | ⟨lines, hmem, _, _, hc⟩ | ⟨lines, hmem, _, _, _, hc⟩
    | ⟨lines, hmem, _, _, _, _, hc⟩
    | ⟨lines, content, hmem, _, _, _, _, _, hc⟩
    | ⟨lines, hmem, _, _, _, _, _, hc⟩ <;> rw [hc]
  · exact ⟨hexp, hj, hp⟩
  · exact ⟨hexp, hj, hp⟩
  · exact ⟨hexp, hJ lines hmem, hP lines hmem⟩
  · exact ⟨hexp, hJ lines hmem, hP lines hmem⟩
  · exact ⟨hexp, hJ lines hmem, hP lines hmem⟩
  · exact ⟨hexp, hJ lines hmem, hP lines hmem⟩
  · refine ⟨by simp only [List.mem_append]; exact Or.inl hexp, ?_, ?_⟩
    · intro j hjm
      obtain ⟨hj1, _⟩ := mem_allJobs_purge_map fp2 _ j hjm
      exact hJ lines hmem j hj1
    · intro pp hppm
      obtain ⟨hp1, _⟩ := mem_allPPs_purge_map fp2 _ pp hppm
      exact hP lines hmem pp hp1

theorem scanSteps_keeps_nofp (fuel : Nat) (fs : Fs) (st : ProcState)
    (fp : FPath) (hexp : fp ∈ st.expanded_files)
    (hj : ∀ j ∈ allJobs st.modules, j.file_path ≠ fp)
    (hp : ∀ pp ∈ allPPs st.modules, pp.file_path ≠ fp) :
    fp ∈ (scanSteps fuel fs st).st.expanded_files ∧
    (∀ j ∈ allJobs (scanSteps fuel fs st).st.modules, j.file_path ≠ fp) ∧
    (∀ pp ∈ allPPs (scanSteps fuel fs st).st.modules,
      pp.file_path ≠ fp) := by
  induction fuel generalizing fs st with
  | zero => exact ⟨hexp, hj, hp⟩
  | succ n ih =>
      cases hq : st.files_to_process with
      | nil => simp only [scanSteps, hq]; exact ⟨hexp, hj, hp⟩
      | cons fp2 rest =>
          simp only [scanSteps, hq]
          obtain ⟨h1, h2, h3⟩ := process_file_keeps_nofp fs
            { st with files_to_process := rest } fp2 fp hexp hj hp
          exact ih _ _ h1 h2 h3

theorem scanSteps_expansion_purged (fuel : Nat) (fs : Fs) (st : ProcState)
    (fp nf : FPath)
    (h : Event.expandedEv fp nf ∈ (scanSteps fuel fs st).events) :
    (∀ j ∈ allJobs (scanSteps fuel fs st).st.modules, j.file_path ≠ fp) ∧
    (∀ pp ∈ allPPs (scanSteps fuel fs st).st.modules,
      pp.file_path ≠ fp) := by
  induction fuel generalizing fs st with
  | zero => simp [scanSteps] at h
  | succ n ih =>
      cases hq : st.files_to_process with
      | nil => simp [scanSteps, hq] at h
      | cons fp2 rest =>
          simp only [scanSteps, hq, List.mem_append] at h ⊢
          rcases h with h | h
          · by_cases hfp : fp2 = fp
            · subst hfp
              obtain ⟨_, h1, h2, h3, _⟩ := process_file_expanded_char fs
                { st with files_to_process := rest } fp2 nf h
              obtain ⟨_, h4, h5⟩ := scanSteps_keeps_nofp n _ _ fp2 h1 h2 h3
              exact ⟨h4, h5⟩
            · exfalso
              rcases process_file_char fs
                  { st with files_to_process := rest } fp2 with
                ⟨_, hc⟩ | ⟨_, _, hc⟩ | ⟨_, _, _, _, hc⟩
                | ⟨_, _, _, _, _, hc⟩ | ⟨_, _, _, _, _, _, hc⟩
                | ⟨_, _, _, _, _, _, _, _, hc⟩
                | ⟨_, _, _, _, _, _, _, hc⟩ <;> rw [hc] at h <;> simp at h
              exact hfp h.1.symm
          · exact ih _ _ h

theorem mem_allJobs_of_mem (ms : List ModuleState) (m : ModuleState)
    (j : Job) : m ∈ ms → j ∈ m.jobs → j ∈ allJobs ms := by
  induction ms with
  | nil => intro hm _; simp at hm
  | cons m2 rest ih =>
      intro hm hj
      rw [allJobs_cons]
      rcases List.mem_cons.mp hm with h | h
      · subst h; exact List.mem_append_left _ hj
      · exact List.mem_append_right _ (ih h hj)

theorem mem_allPPs_of_mem (ms : List ModuleState) (m : ModuleState)
    (pp : PostprocessLine) :
    m ∈ ms → pp ∈ m.postprocess_lines → pp ∈ allPPs ms := by
  induction ms with
  | nil => intro hm _; simp at hm
  | cons m2 rest ih =>
      intro hm hpp
      rw [allPPs_cons]
      rcases List.mem_cons.mp hm with h | h
      · subst h; exact List.mem_append_left _ hpp
      · exact List.mem_append_right _ (ih h hpp)

theorem mem_jobList (ms : List ModuleState) :
    ∀ x ∈ jobList ms, x.2 ∈ allJobs ms := by
  unfold jobList
  have main : ∀ (l : List ModuleState) (acc : List (String × Job)),
      (∀ x ∈ acc, x.2 ∈ allJobs ms) →
      (∀ m ∈ l, ∀ j ∈ m.jobs, j ∈ allJobs ms) →
      ∀ x ∈ (l.foldl (fun acc m =>
          acc ++ m.jobs.map (fun j => (m.spec.name, j))) acc),
        x.2 ∈ allJobs ms := by
    intro l
    induction l with
    | nil => intro acc hacc _ x hx; exact hacc x hx
    | cons m rest ih =>
        intro acc hacc hl x hx
        simp only [List.foldl_cons] at hx
        refine ih _ ?_ ?_ x hx
        · intro y hy
          simp only [List.mem_append] at hy
          rcases hy with hy | hy
          · exact hacc y hy
          · simp only [List.mem_map] at hy
            obtain ⟨j, hjm, hj⟩ := hy
            rw [← hj]
            exact hl m (List.mem_cons_self m rest) j hjm
        · intro m2 hm2
          exact hl m2 (List.mem_cons_of_mem m hm2)
  intro x hx
  exact main ms [] (by simp) (fun m hm j hj =>
    mem_allJobs_of_mem ms m j hm hj) x hx

theorem lookupEntry_eq_none {κ α : Type} [DecidableEq κ]
    (g : List (κ × List α)) (k : κ)
    (h : ∀ e ∈ g, e.1 ≠ k) : lookupEntry g k = none := by
  induction g with
  | nil => rfl
  | cons e rest ih =>
      obtain ⟨k2, vs⟩ := e
      have hk2 : k2 ≠ k := h (k2, vs) (List.mem_cons_self _ _)
      simp only [lookupEntry, if_neg hk2]
      exact ih (fun e2 he2 => h e2 (List.mem_cons_of_mem _ he2))

theorem addEntry_entries {κ α : Type} [DecidableEq κ]
    (g : List (κ × List α)) (k : κ) (v : α) :
    ∀ e ∈ addEntry g k v, e.1 ∈ g.map Prod.fst ∨ e.1 = k := by
  induction g with
  | nil =>
      intro e he
      simp only [addEntry, List.mem_singleton] at he
      rw [he]
      exact Or.inr rfl
  | cons e2 rest ih =>
      obtain ⟨k2, vs⟩ := e2
      intro e he
      simp only [addEntry] at he
      by_cases hk : k2 = k
      · rw [if_pos hk] at he
        rcases List.mem_cons.mp he with h | h
        · rw [h]; exact Or.inr hk
        · refine Or.inl ?_
          simp only [List.map_cons, List.mem_cons]
          exact Or.inr (List.mem_map_of_mem Prod.fst h)
      · rw [if_neg hk] at he
        rcases List.mem_cons.mp he with h | h
        · rw [h]
          exact Or.inl (by simp)
        · rcases ih e h with hh | hh
          · refine Or.inl ?_
            simp only [List.map_cons, List.mem_cons]
            exact Or.inr hh
          · exact Or.inr hh

theorem groupByFile_keys (ms : List ModuleState) :
    ∀ e ∈ groupByFile ms, ∃ pp ∈ allPPs ms, pp.file_path = e.1 := by
  unfold groupByFile
  have inner : ∀ (spec : ModuleSpec) (pps : List PostprocessLine)
      (a : List (FPath × List (ModuleSpec × PostprocessLine))),
      (∀ e2 ∈ a, ∃ pp ∈ allPPs ms, pp.file_path = e2.1) →
      (∀ pp ∈ pps, pp ∈ allPPs ms) →
      ∀ e2 ∈ (pps.foldl
          (fun a pp => addEntry a pp.file_path (spec, pp)) a),
        ∃ pp ∈ allPPs ms, pp.file_path = e2.1 := by
    intro spec pps
    induction pps with
    | nil => intro a ha _ e2 he2; exact ha e2 he2
    | cons pp rest2 ihp =>
        intro a ha hpps e2 he2
        simp only [List.foldl_cons] at he2
        refine ihp _ ?_
          (fun pp2 hpp2 => hpps pp2 (List.mem_cons_of_mem pp hpp2))
          e2 he2
        intro e3 he3
        rcases addEntry_entries a pp.file_path (spec, pp) e3 he3
          with hh | hh
        · simp only [List.mem_map] at hh
          obtain ⟨e4, he4, hfst⟩ := hh
          obtain ⟨pp2, hpp2, hpath⟩ := ha e4 he4
          exact ⟨pp2, hpp2, by rw [hpath, hfst]⟩
        · exact ⟨pp, hpps pp (List.mem_cons_self _ _), hh.symm⟩
  have main : ∀ (l : List ModuleState)
      (acc : List (FPath × List (ModuleSpec × PostprocessLine))),
      (∀ e ∈ acc, ∃ pp ∈ allPPs ms, pp.file_path = e.1) →
      (∀ m ∈ l, ∀ pp ∈ m.postprocess_lines, pp ∈ allPPs ms) →
      ∀ e ∈ (l.foldl (fun acc m =>
          m.postprocess_lines.foldl
            (fun a pp => addEntry a pp.file_path (m.spec, pp)) acc) acc),
        ∃ pp ∈ allPPs ms, pp.file_path = e.1 := by
    intro l
    induction l with
    | nil => intro acc hacc _ e he; exact hacc e he
    | cons m rest ih =>
        intro acc hacc hl e he
        simp only [List.foldl_cons] at he
        refine ih _ ?_
          (fun m2 hm2 => hl m2 (List.mem_cons_of_mem m hm2)) e he
        exact inner m.spec m.postprocess_lines acc hacc
          (fun pp hpp => hl m (List.mem_cons_self m rest) pp hpp)
  intro e he
  exact main ms [] (by simp) (fun m hm pp hpp =>
    mem_allPPs_of_mem ms m pp hm hpp) e he


/-- C1: when scanning performs a successful promotion of `fp` (an
`expandedEv fp nf` is emitted), the new identity is the canonical bundle
target, every Job and every PostprocessLine whose document identity equals
the pre-promotion path has been purged from every module's lists (not only
the requester's) in the resulting state, and the worklist is the previous
worklist with exactly the new identity appended; moreover at the end of
the whole scan no job submitted to preprocessing and no entry of the
rewrite grouping references the pre-promotion path. -/
theorem C1_expansion_purge (fs : Fs) (st : ProcState) (fp nf : FPath)
    (fuel : Nat) (fs0 : Fs) (st0 : ProcState) :
    (Event.expandedEv fp nf ∈ (process_file fs st fp).2.2 →
      nf = expandTarget fp ∧
      (∀ j ∈ allJobs (process_file fs st fp).1.modules, j.file_path ≠ fp) ∧
      (∀ pp ∈ allPPs (process_file fs st fp).1.modules,
        pp.file_path ≠ fp) ∧
      (process_file fs st fp).1.files_to_process =
        st.files_to_process ++ [nf]) ∧
    (Event.expandedEv fp nf ∈ (scanSteps fuel fs0 st0).events →
      (∀ j ∈ allJobs (scanSteps fuel fs0 st0).st.modules,
        j.file_path ≠ fp) ∧
      (∀ pp ∈ allPPs (scanSteps fuel fs0 st0).st.modules,
        pp.file_path ≠ fp) ∧
      (∀ x ∈ jobList (scanSteps fuel fs0 st0).st.modules,
        x.2.file_path ≠ fp) ∧
      lookupEntry (groupByFile (scanSteps fuel fs0 st0).st.modules) fp =
        none) := by
  constructor
  · intro h
    obtain ⟨h1, _, h3, h4, h5⟩ := process_file_expanded_char fs st fp nf h
    exact ⟨h1, h3, h4, h5⟩
  · intro h
    obtain ⟨h1, h2⟩ := scanSteps_expansion_purged fuel fs0 st0 fp nf h
    refine ⟨h1, h2, ?_, ?_⟩
    · intro x hx
      exact h1 x.2 (mem_jobList _ x hx)
    · apply lookupEntry_eq_none
      intro e he heq
      obtain ⟨pp, hpp, hpath⟩ := groupByFile_keys _ e he
      exact h2 pp hpp (by rw [hpath, heq])

/-- Witness for C1: in the concrete one-document scenario the expansion of
`content/a.md` is performed and the purge conclusions hold. -/
theorem C1_expansion_purge_witness :
    (∀ j ∈ allJobs (process_file demoFs
        ⟨[demoModuleState], false, [], []⟩ aMd).1.modules,
      j.file_path ≠ aMd) ∧
    lookupEntry (groupByFile
      (scanSteps 3 demoFs ⟨[demoModuleState], false, [], [aMd]⟩).st.modules)
      aMd = none :=
  ⟨((C1_expansion_purge demoFs ⟨[demoModuleState], false, [], []⟩ aMd
      (expandTarget aMd) 3 demoFs
      ⟨[demoModuleState], false, [], [aMd]⟩).1 (by decide)).2.1,
   ((C1_expansion_purge demoFs ⟨[demoModuleState], false, [], []⟩ aMd
      (expandTarget aMd) 3 demoFs
      ⟨[demoModuleState], false, [], [aMd]⟩).2 (by decide)).2.2.2⟩

/-- C8: the worklist is drained by the scan (no pending document remains),
the scanned sequence is exactly the initial worklist in FIFO order
followed by the documents re-enqueued by promotion in promotion order, and
the run's event trace is the scan-phase trace followed by the
preprocessing trace followed by the rewrite trace — each phase emitting
only its own kind of events — so all scanning completes before any
preprocessing job runs and the phases never interleave. -/
theorem C8_scan_fifo_then_preprocess (pre : PreOracle)
    (wo : FPath → WriteOutcome) (dry : Bool) (modules : List ModuleState)
    (files : List FPath) (fs : Fs) :
    (process_all pre wo dry modules files fs).st.files_to_process = [] ∧
    (process_all pre wo dry modules files fs).pops =
      files ++ extraOf (process_all pre wo dry modules files fs).scanEvents ∧
    (process_all pre wo dry modules files fs).events =
      (process_all pre wo dry modules files fs).scanEvents ++
        (process_all pre wo dry modules files fs).preEvents ++
        (process_all pre wo dry modules files fs).postEvents ∧
    (∀ e ∈ (process_all pre wo dry modules files fs).scanEvents,
      isScanEv e = true) ∧
    (∀ e ∈ (process_all pre wo dry modules files fs).preEvents,
      isPreEv e = true) ∧
    (∀ e ∈ (process_all pre wo dry modules files fs).postEvents,
      isPostEv e = true) := by
  have hdrain := scanSteps_drain (scanFuel files) fs
    ⟨modules, dry, [], files⟩ (queueMeasure_le_scanFuel files)
  have hpq := scanSteps_pops_queue (scanFuel files) fs
    ⟨modules, dry, [], files⟩
  rw [hdrain, List.append_nil] at hpq
  refine ⟨hdrain, hpq, ?_, ?_, ?_, ?_⟩
  · simp [RunOut.events]
  · exact scanSteps_events_scan _ _ _
  · exact run_preprocessing_events_pre _ _ _
  · exact run_postprocessing_events_post _ _ _ _


theorem lookupEntry_addEntry_same {κ α : Type} [DecidableEq κ]
    (g : List (κ × List α)) (k : κ) (v : α) :
    lookupEntry (addEntry g k v) k =
      some (((lookupEntry g k).getD []) ++ [v]) := by
  induction g with
  | nil => simp [addEntry, lookupEntry]
  | cons e rest ih =>
      obtain ⟨k2, vs⟩ := e
      by_cases h : k2 = k
      · subst h
        simp [addEntry, lookupEntry]
      · simp [addEntry, lookupEntry, h, ih]

theorem lookupEntry_addEntry_other {κ α : Type} [DecidableEq κ]
    (g : List (κ × List α)) (k k2 : κ) (v : α) (h : k2 ≠ k) :
    lookupEntry (addEntry g k v) k2 = lookupEntry g k2 := by
  induction g with
  | nil => simp [addEntry, lookupEntry, Ne.symm h]
  | cons e rest ih =>
      obtain ⟨k3, vs⟩ := e
      by_cases h3 : k3 = k
      · subst h3
        have hk32 : k3 ≠ k2 := fun hh => h hh.symm
        simp [addEntry, lookupEntry, hk32]
      · simp only [addEntry, if_neg h3]
        by_cases h32 : k3 = k2
        · simp [lookupEntry, h32]
        · simp [lookupEntry, h32, ih]

theorem lineTaggers_cons (x : ModuleSpec × PostprocessLine)
    (rest : List (ModuleSpec × PostprocessLine)) (ln : Nat) :
    lineTaggers (x :: rest) ln =
      if x.2.line_no = ln then (x.1, x.2.metadata) :: lineTaggers rest ln
      else lineTaggers rest ln := by
  by_cases h : x.2.line_no = ln <;> simp [lineTaggers, h]

theorem buildLineMap_lookup_aux (xs : List (ModuleSpec × PostprocessLine))
    (acc : List (Nat × List (ModuleSpec × Metadata))) (ln : Nat) :
    (lookupEntry (xs.foldl
        (fun acc x => addEntry acc x.2.line_no (x.1, x.2.metadata)) acc)
      ln).getD [] =
      (lookupEntry acc ln).getD [] ++ lineTaggers xs ln := by
  induction xs generalizing acc with
  | nil => simp [lineTaggers]
  | cons x rest ih =>
      simp only [List.foldl_cons]
      rw [ih, lineTaggers_cons]
      by_cases h : x.2.line_no = ln
      · rw [if_pos h, ← h, lookupEntry_addEntry_same]
        simp
      · rw [if_neg h, lookupEntry_addEntry_other _ _ _ _
          (fun hh : ln = x.2.line_no => h hh.symm)]

theorem buildLineMap_lookup (tagged : List (ModuleSpec × PostprocessLine))
    (ln : Nat) :
    (lookupEntry (buildLineMap tagged) ln).getD [] =
      lineTaggers tagged ln := by
  unfold buildLineMap
  rw [buildLineMap_lookup_aux]
  simp [lookupEntry]

theorem taggedFor_filter_cons (spec : ModuleSpec)
    (pp : PostprocessLine) (fp : FPath) :
    (if pp.file_path = fp then [(spec, pp)] else []) =
      ((List.filter (fun q => decide (q.file_path = fp)) [pp]).map
        (fun q => (spec, q))) := by
  by_cases h : pp.file_path = fp <;> simp [h]

theorem groupByFile_lookup_aux (spec : ModuleSpec)
    (pps : List PostprocessLine)
    (acc : List (FPath × List (ModuleSpec × PostprocessLine)))
    (fp : FPath) :
    (lookupEntry (pps.foldl
        (fun a pp => addEntry a pp.file_path (spec, pp)) acc) fp).getD [] =
      (lookupEntry acc fp).getD [] ++
        ((pps.filter (fun pp => pp.file_path = fp)).map
          (fun pp => (spec, pp))) := by
  induction pps generalizing acc with
  | nil => simp
  | cons pp rest ih =>
      simp only [List.foldl_cons]
      rw [ih]
      by_cases h : pp.file_path = fp
      · rw [← h, lookupEntry_addEntry_same]
        simp [h]
      · rw [lookupEntry_addEntry_other _ _ _ _
          (fun hh : fp = pp.file_path => h hh.symm)]
        simp [h]

theorem groupByFile_lookup (ms : List ModuleState) (fp : FPath) :
    (lookupEntry (groupByFile ms) fp).getD [] = taggedFor ms fp := by
  unfold groupByFile taggedFor
  have main : ∀ (l : List ModuleState)
      (acc : List (FPath × List (ModuleSpec × PostprocessLine))),
      (lookupEntry (l.foldl (fun acc m =>
          m.postprocess_lines.foldl
            (fun a pp => addEntry a pp.file_path (m.spec, pp)) acc) acc)
        fp).getD [] =
        (lookupEntry acc fp).getD [] ++
          (l.foldr (fun m acc2 =>
            ((m.postprocess_lines.filter (fun pp => pp.file_path = fp)).map
              (fun pp => (m.spec, pp))) ++ acc2) []) := by
    intro l
    induction l with
    | nil => intro acc; simp
    | cons m rest ih =>
        intro acc
        simp only [List.foldl_cons, List.foldr_cons]
        rw [ih, groupByFile_lookup_aux]
        simp
  rw [main]
  simp [lookupEntry]

theorem postprocessOneLine_fst (fp : FPath) (ln : Nat)
    (taggers : List (ModuleSpec × Metadata)) (l : String) :
    (postprocessOneLine fp ln taggers l).1 =
      applyTaggers fp ln taggers l := by
  unfold postprocessOneLine applyTaggers
  have main : ∀ (ts : List (ModuleSpec × Metadata)) (l0 : String)
      (evs : List Event),
      (ts.foldl (fun acc t =>
        (t.1.postprocess fp ln acc.1 t.2,
         acc.2 ++ [Event.rewroteLine fp ln t.1.name])) (l0, evs)).1 =
        ts.foldl (fun acc t => t.1.postprocess fp ln acc t.2) l0 := by
    intro ts
    induction ts with
    | nil => intro l0 evs; rfl
    | cons t rest ih =>
        intro l0 evs
        simp only [List.foldl_cons]
        exact ih _ _
  exact main taggers l []

theorem rewriteLinesFrom_get (fp : FPath)
    (lm : List (Nat × List (ModuleSpec × Metadata))) (n : Nat)
    (ls : List String) (i : Nat) :
    (rewriteLinesFrom fp lm n ls).1.get? i =
      (ls.get? i).map (fun l =>
        applyTaggers fp (n + i) ((lookupEntry lm (n + i)).getD []) l) := by
  induction ls generalizing n i with
  | nil => simp [rewriteLinesFrom]
  | cons l rest ih =>
      cases i with
      | zero =>
          simp only [rewriteLinesFrom, List.get?_cons_zero, Nat.add_zero,
            Option.map_some]
          rcases hl : lookupEntry lm n with _ | taggers
          · simp [hl, applyTaggers]
          · simp only [hl, Option.getD_some]
            rw [postprocessOneLine_fst]
            rfl
      | succ i2 =>
          simp only [rewriteLinesFrom, List.get?_cons_succ]
          rw [ih (n + 1) i2]
          have : n + 1 + i2 = n + (i2 + 1) := by omega
          rw [this]

theorem rewriteLinesFrom_length (fp : FPath)
    (lm : List (Nat × List (ModuleSpec × Metadata))) (n : Nat)
    (ls : List String) :
    (rewriteLinesFrom fp lm n ls).1.length = ls.length := by
  induction ls generalizing n with
  | nil => rfl
  | cons l rest ih =>
      simp only [rewriteLinesFrom, List.length_cons]
      rw [ih]

theorem lineTaggers_append (a b : List (ModuleSpec × PostprocessLine))
    (ln : Nat) :
    lineTaggers (a ++ b) ln = lineTaggers a ln ++ lineTaggers b ln := by
  simp [lineTaggers]

theorem lineTaggers_map_filter (spec : ModuleSpec)
    (pps : List PostprocessLine) (fp : FPath) (ln : Nat) :
    lineTaggers ((pps.filter (fun pp => pp.file_path = fp)).map
        (fun pp => (spec, pp))) ln =
      (pps.filter (fun pp => pp.file_path = fp ∧ pp.line_no = ln)).map
        (fun pp => (spec, pp.metadata)) := by
  induction pps with
  | nil => rfl
  | cons pp rest ih =>
      by_cases hf : pp.file_path = fp
      · by_cases hl : pp.line_no = ln
        · simp [List.filter_cons, hf, hl, lineTaggers_cons, ih]
        · simp [List.filter_cons, hf, hl, lineTaggers_cons, ih]
      · simp [List.filter_cons, hf, ih]

theorem lineTaggers_taggedFor (ms : List ModuleState) (fp : FPath)
    (ln : Nat) :
    lineTaggers (taggedFor ms fp) ln = lineTaggersByModule ms fp ln := by
  induction ms with
  | nil => rfl
  | cons m rest ih =>
      simp only [taggedFor, lineTaggersByModule, List.foldr_cons] at ih ⊢
      rw [lineTaggers_append, lineTaggers_map_filter, ih]

/-- C5: in the rewrite pass, tagged lines are grouped by document (the
grouping's entry for a document is exactly its tagged lines in module
registration order) and looked up by line index; the rewritten line at
index `ln` is the left-to-right composition of the tagging detectors'
`postprocess` outputs, applied per module in registration order, and a
line with no taggers passes through unchanged. -/
theorem C5_rewrite_composition (ms : List ModuleState) (fp : FPath)
    (lines : List String) (ln : Nat) :
    (lookupEntry (groupByFile ms) fp).getD [] = taggedFor ms fp ∧
    (rewriteLinesFrom fp (buildLineMap (taggedFor ms fp)) 0 lines).1.get? ln
      = (lines.get? ln).map
          (applyTaggers fp ln (lineTaggersByModule ms fp ln)) ∧
    (lineTaggersByModule ms fp ln = [] →
      (rewriteLinesFrom fp (buildLineMap (taggedFor ms fp)) 0
        lines).1.get? ln = lines.get? ln) := by
  have h2 : (rewriteLinesFrom fp (buildLineMap (taggedFor ms fp)) 0
      lines).1.get? ln = (lines.get? ln).map
        (applyTaggers fp ln (lineTaggersByModule ms fp ln)) := by
    rw [rewriteLinesFrom_get]
    simp only [Nat.zero_add]
    rw [buildLineMap_lookup, lineTaggers_taggedFor]
  refine ⟨groupByFile_lookup ms fp, h2, ?_⟩
  intro hempty
  rw [h2, hempty]
  cases lines.get? ln <;> rfl


theorem buildLineMap_ignores_snapshot
    (tagged tagged2 : List (ModuleSpec × PostprocessLine))
    (h : tagged.map (fun x => (x.1, x.2.file_path, x.2.line_no,
          x.2.metadata)) =
        tagged2.map (fun x => (x.1, x.2.file_path, x.2.line_no,
          x.2.metadata))) :
    buildLineMap tagged = buildLineMap tagged2 := by
  unfold buildLineMap
  have main : ∀ (l1 l2 : List (ModuleSpec × PostprocessLine)),
      l1.map (fun x => (x.1, x.2.file_path, x.2.line_no, x.2.metadata)) =
        l2.map (fun x => (x.1, x.2.file_path, x.2.line_no,
          x.2.metadata)) →
      ∀ acc, l1.foldl
          (fun acc x => addEntry acc x.2.line_no (x.1, x.2.metadata)) acc =
        l2.foldl
          (fun acc x => addEntry acc x.2.line_no (x.1, x.2.metadata))
          acc := by
    intro l1
    induction l1 with
    | nil =>
        intro l2 hmap acc
        cases l2 with
        | nil => rfl
        | cons y r2 => simp at hmap
    | cons x r1 ih =>
        intro l2 hmap acc
        cases l2 with
        | nil => simp at hmap
        | cons y r2 =>
            simp only [List.map_cons, List.cons.injEq] at hmap
            obtain ⟨hhead, htail⟩ := hmap
            simp only [Prod.mk.injEq] at hhead
            obtain ⟨h1, _, h3, h4⟩ := hhead
            simp only [List.foldl_cons]
            rw [show addEntry acc x.2.line_no (x.1, x.2.metadata) =
                addEntry acc y.2.line_no (y.1, y.2.metadata) by
              rw [h1, h3, h4]]
            exact ih r2 htail _
  exact main tagged tagged2 h []

/-- C10 (implicit): in the rewrite pass a tagged line is matched purely by
line index into the freshly re-read file — a tagged line whose index is
not a valid index of the current line sequence produces no `postprocess`
call and no error (the file is still rewritten successfully) — and the
stored line-text snapshot is never consulted: two tagged-line lists that
agree on everything except the snapshots produce identical results. -/
theorem C10_index_matching_snapshot_ignored (wo : FPath → WriteOutcome)
    (fs : Fs) (fp : FPath)
    (tagged tagged2 : List (ModuleSpec × PostprocessLine))
    (lines : List String) (ln : Nat) :
    (fs fp = some lines → lines.length ≤ ln →
      (∀ name, Event.rewroteLine fp ln name ∉
        (rewriteFileEff wo fs fp tagged).2) ∧
      (wo fp = WriteOutcome.ok →
        Event.rewriteOk fp ∈ (rewriteFileEff wo fs fp tagged).2 ∧
        Event.rewriteError fp ∉ (rewriteFileEff wo fs fp tagged).2)) ∧
    (tagged.map (fun x => (x.1, x.2.file_path, x.2.line_no,
        x.2.metadata)) =
      tagged2.map (fun x => (x.1, x.2.file_path, x.2.line_no,
        x.2.metadata)) →
      rewriteFileEff wo fs fp tagged = rewriteFileEff wo fs fp tagged2) := by
  constructor
  · intro hread hlen
    have hshape : ∀ e ∈ (rewriteLinesFrom fp (buildLineMap tagged) 0
        lines).2, ∃ k name, e = Event.rewroteLine fp k name ∧
          k < lines.length := by
      intro e he
      obtain ⟨k, name, hname, _, hk⟩ :=
        rewriteLinesFrom_events fp (buildLineMap tagged) 0 lines e he
      exact ⟨k, name, hname, by omega⟩
    constructor
    · intro name hmem
      unfold rewriteFileEff at hmem
      rw [hread] at hmem
      revert hmem
      rcases wo fp with _ | k | _ <;>
        (intro hmem
         simp only [List.mem_append] at hmem
         rcases hmem with hmem | hmem
         · obtain ⟨k2, name2, heq, hk2⟩ := hshape _ hmem
           rw [Event.rewroteLine.injEq] at heq
           omega
         · simp at hmem)
    · intro hok
      unfold rewriteFileEff
      rw [hread, hok]
      constructor
      · simp
      · intro hmem
        simp only [List.mem_append] at hmem
        rcases hmem with hmem | hmem
        · obtain ⟨k2, name2, heq, _⟩ := hshape _ hmem
          simp at heq
        · simp at hmem
  · intro hmap
    unfold rewriteFileEff
    rw [buildLineMap_ignores_snapshot tagged tagged2 hmap]

/-- Witness for C10: a tagged line with index 5 in a one-line document is
silently skipped (the file still rewrites successfully), and changing only
the stored snapshot changes nothing. -/
theorem C10_index_matching_snapshot_ignored_witness :
    ((∀ name, Event.rewroteLine aMd 5 name ∉
        (rewriteFileEff demoWo
          (fun p => if p = aMd then some ["x"] else none) aMd
          [(demoTagModule, ⟨aMd, 5, "old snapshot", {}⟩)]).2) ∧
      (demoWo aMd = WriteOutcome.ok →
        Event.rewriteOk aMd ∈ (rewriteFileEff demoWo
          (fun p => if p = aMd then some ["x"] else none) aMd
          [(demoTagModule, ⟨aMd, 5, "old snapshot", {}⟩)]).2 ∧
        Event.rewriteError aMd ∉ (rewriteFileEff demoWo
          (fun p => if p = aMd then some ["x"] else none) aMd
          [(demoTagModule, ⟨aMd, 5, "old snapshot", {}⟩)]).2)) ∧
    rewriteFileEff demoWo (fun p => if p = aMd then some ["x"] else none)
        aMd [(demoTagModule, ⟨aMd, 5, "old snapshot", {}⟩)] =
      rewriteFileEff demoWo (fun p => if p = aMd then some ["x"] else none)
        aMd [(demoTagModule, ⟨aMd, 5, "changed snapshot", {}⟩)] :=
  ⟨(C10_index_matching_snapshot_ignored demoWo
      (fun p => if p = aMd then some ["x"] else none) aMd
      [(demoTagModule, ⟨aMd, 5, "old snapshot", {}⟩)]
      [(demoTagModule, ⟨aMd, 5, "changed snapshot", {}⟩)] ["x"] 5).1
      (by decide) (by decide),
   (C10_index_matching_snapshot_ignored demoWo
      (fun p => if p = aMd then some ["x"] else none) aMd
      [(demoTagModule, ⟨aMd, 5, "old snapshot", {}⟩)]
      [(demoTagModule, ⟨aMd, 5, "changed snapshot", {}⟩)] ["x"] 5).2 rfl⟩


/-- Witness for C5: with a detector holding no tagged lines, every line of
a concrete document passes through unchanged. -/
theorem C5_rewrite_composition_witness :
    (lookupEntry (groupByFile [demoTagModuleState]) aMd).getD [] =
      taggedFor [demoTagModuleState] aMd ∧
    (rewriteLinesFrom aMd
        (buildLineMap (taggedFor [demoTagModuleState] aMd)) 0
        ["x"]).1.get? 0 = (["x"].get? 0) :=
  ⟨(C5_rewrite_composition [demoTagModuleState] aMd ["x"] 0).1,
   (C5_rewrite_composition [demoTagModuleState] aMd ["x"] 0).2.2 rfl⟩


theorem rewriteFileEff_frame (wo : FPath → WriteOutcome) (fs : Fs)
    (fp : FPath) (tagged : List (ModuleSpec × PostprocessLine))
    (q : FPath) (h1 : q ≠ fp) (h2 : q ≠ fp.withSuffix ".tmp") :
    (rewriteFileEff wo fs fp tagged).1 q = fs q := by
  unfold rewriteFileEff
  rcases fs fp with _ | lines
  · rfl
  · rcases wo fp with _ | k | _ <;> simp [fsUpd, h1, h2]

theorem rewriteFileEff_at_key (wo : FPath → WriteOutcome) (fs : Fs)
    (fp : FPath) (tagged : List (ModuleSpec × PostprocessLine))
    (hsfx : fp.suffix = ".md") :
    (fs fp = none →
      (rewriteFileEff wo fs fp tagged).1 fp = fs fp ∧
      Event.rewriteError fp ∈ (rewriteFileEff wo fs fp tagged).2) ∧
    (∀ lines, fs fp = some lines →
      (wo fp = WriteOutcome.ok →
        (rewriteFileEff wo fs fp tagged).1 fp =
          some (rewriteLinesFrom fp (buildLineMap tagged) 0 lines).1 ∧
        Event.rewriteOk fp ∈ (rewriteFileEff wo fs fp tagged).2) ∧
      (wo fp ≠ WriteOutcome.ok →
        (rewriteFileEff wo fs fp tagged).1 fp = fs fp ∧
        Event.rewriteError fp ∈ (rewriteFileEff wo fs fp tagged).2)) := by
  have hne : fp ≠ fp.withSuffix ".tmp" := by
    intro h
    have hs : fp.suffix = ".tmp" := congrArg FPath.suffix h
    rw [hsfx] at hs
    exact absurd hs (by decide)
  constructor
  · intro h0
    constructor
    · simp [rewriteFileEff, h0]
    · simp [rewriteFileEff, h0]
  · intro lines hlines
    constructor
    · intro hok
      constructor
      · simp [rewriteFileEff, hlines, hok, fsUpd]
      · simp [rewriteFileEff, hlines, hok]
    · intro hnok
      rcases hwo : wo fp with _ | k | _
      · exact absurd hwo hnok
      · constructor
        · simp [rewriteFileEff, hlines, hwo, fsUpd, hne]
        · simp [rewriteFileEff, hlines, hwo]
      · constructor
        · simp [rewriteFileEff, hlines, hwo, fsUpd, hne]
        · simp [rewriteFileEff, hlines, hwo]

theorem addEntry_keys_sub {κ α : Type} [DecidableEq κ]
    (g : List (κ × List α)) (k : κ) (v : α) :
    ∀ y ∈ (addEntry g k v).map Prod.fst, y ∈ g.map Prod.fst ∨ y = k := by
  intro y hy
  simp only [List.mem_map] at hy
  obtain ⟨e, he, hfst⟩ := hy
  rcases addEntry_entries g k v e he with h | h
  · exact Or.inl (hfst ▸ h)
  · exact Or.inr (hfst ▸ h)

theorem addEntry_keys_nodup {κ α : Type} [DecidableEq κ]
    (g : List (κ × List α)) (k : κ) (v : α)
    (h : (g.map Prod.fst).Nodup) :
    ((addEntry g k v).map Prod.fst).Nodup := by
  induction g with
  | nil => simp [addEntry]
  | cons e rest ih =>
      obtain ⟨k2, vs⟩ := e
      simp only [List.map_cons, List.nodup_cons] at h
      obtain ⟨hk2, hrest⟩ := h
      by_cases hk : k2 = k
      · simp only [addEntry, if_pos hk, List.map_cons, List.nodup_cons]
        exact ⟨hk2, hrest⟩
      · simp only [addEntry, if_neg hk, List.map_cons, List.nodup_cons]
        refine ⟨?_, ih hrest⟩
        intro hmem
        rcases addEntry_keys_sub rest k v k2 hmem with hh | hh
        · exact hk2 hh
        · exact hk hh

theorem groupByFile_keys_nodup (ms : List ModuleState) :
    ((groupByFile ms).map Prod.fst).Nodup := by
  unfold groupByFile
  have inner : ∀ (spec : ModuleSpec) (pps : List PostprocessLine)
      (acc : List (FPath × List (ModuleSpec × PostprocessLine))),
      (acc.map Prod.fst).Nodup →
      ((pps.foldl (fun a pp => addEntry a pp.file_path (spec, pp))
        acc).map Prod.fst).Nodup := by
    intro spec pps
    induction pps with
    | nil => intro acc h; exact h
    | cons pp rest ih =>
        intro acc h
        simp only [List.foldl_cons]
        exact ih _ (addEntry_keys_nodup _ _ _ h)
  have main : ∀ (l : List ModuleState)
      (acc : List (FPath × List (ModuleSpec × PostprocessLine))),
      (acc.map Prod.fst).Nodup →
      ((l.foldl (fun acc m =>
          m.postprocess_lines.foldl
            (fun a pp => addEntry a pp.file_path (m.spec, pp)) acc)
        acc).map Prod.fst).Nodup := by
    intro l
    induction l with
    | nil => intro acc h; exact h
    | cons m rest ih =>
        intro acc h
        simp only [List.foldl_cons]
        exact ih _ (inner m.spec m.postprocess_lines acc h)
  exact main ms [] (by simp)

theorem postLoop_frame (wo : FPath → WriteOutcome)
    (groups : List (FPath × List (ModuleSpec × PostprocessLine)))
    (acc : PostOut) (q : FPath)
    (h : ∀ g ∈ groups, q ≠ g.1 ∧ q ≠ g.1.withSuffix ".tmp") :
    (groups.foldl (fun acc g =>
      (⟨(rewriteFileEff wo acc.fs g.1 g.2).1,
        acc.events ++ (rewriteFileEff wo acc.fs g.1 g.2).2⟩ : PostOut))
      acc).fs q = acc.fs q := by
  induction groups generalizing acc with
  | nil => rfl
  | cons g rest ih =>
      simp only [List.foldl_cons]
      rw [ih _ (fun g2 hg2 => h g2 (List.mem_cons_of_mem g hg2))]
      exact rewriteFileEff_frame wo acc.fs g.1 g.2 q
        (h g (List.mem_cons_self _ _)).1 (h g (List.mem_cons_self _ _)).2

theorem postLoop_events_mono (wo : FPath → WriteOutcome)
    (groups : List (FPath × List (ModuleSpec × PostprocessLine)))
    (acc : PostOut) :
    ∃ t, (groups.foldl (fun acc g =>
      (⟨(rewriteFileEff wo acc.fs g.1 g.2).1,
        acc.events ++ (rewriteFileEff wo acc.fs g.1 g.2).2⟩ : PostOut))
      acc).events = acc.events ++ t := by
  induction groups generalizing acc with
  | nil => exact ⟨[], by simp⟩
  | cons g rest ih =>
      simp only [List.foldl_cons]
      obtain ⟨t, ht⟩ := ih (⟨(rewriteFileEff wo acc.fs g.1 g.2).1,
        acc.events ++ (rewriteFileEff wo acc.fs g.1 g.2).2⟩ : PostOut)
      exact ⟨(rewriteFileEff wo acc.fs g.1 g.2).2 ++ t,
        by rw [ht]; simp⟩

theorem postLoop_main (wo : FPath → WriteOutcome)
    (groups : List (FPath × List (ModuleSpec × PostprocessLine)))
    (acc : PostOut) (hnodup : (groups.map Prod.fst).Nodup)
    (hmd : ∀ g ∈ groups, g.1.suffix = ".md") :
    ∀ g ∈ groups,
      ((groups.foldl (fun acc g =>
          (⟨(rewriteFileEff wo acc.fs g.1 g.2).1,
            acc.events ++ (rewriteFileEff wo acc.fs g.1 g.2).2⟩ :
              PostOut)) acc).fs g.1 = acc.fs g.1 ∨
        ∃ lines, acc.fs g.1 = some lines ∧
          (groups.foldl (fun acc g =>
            (⟨(rewriteFileEff wo acc.fs g.1 g.2).1,
              acc.events ++ (rewriteFileEff wo acc.fs g.1 g.2).2⟩ :
                PostOut)) acc).fs g.1 =
            some (rewriteLinesFrom g.1 (buildLineMap g.2) 0 lines).1) ∧
      (∀ lines, acc.fs g.1 = some lines → wo g.1 = WriteOutcome.ok →
        (groups.foldl (fun acc g =>
          (⟨(rewriteFileEff wo acc.fs g.1 g.2).1,
            acc.events ++ (rewriteFileEff wo acc.fs g.1 g.2).2⟩ :
              PostOut)) acc).fs g.1 =
          some (rewriteLinesFrom g.1 (buildLineMap g.2) 0 lines).1 ∧
        Event.rewriteOk g.1 ∈ (groups.foldl (fun acc g =>
          (⟨(rewriteFileEff wo acc.fs g.1 g.2).1,
            acc.events ++ (rewriteFileEff wo acc.fs g.1 g.2).2⟩ :
              PostOut)) acc).events) ∧
      ((wo g.1 ≠ WriteOutcome.ok ∨ acc.fs g.1 = none) →
        (groups.foldl (fun acc g =>
          (⟨(rewriteFileEff wo acc.fs g.1 g.2).1,
            acc.events ++ (rewriteFileEff wo acc.fs g.1 g.2).2⟩ :
              PostOut)) acc).fs g.1 = acc.fs g.1 ∧
        Event.rewriteError g.1 ∈ (groups.foldl (fun acc g =>
          (⟨(rewriteFileEff wo acc.fs g.1 g.2).1,
            acc.events ++ (rewriteFileEff wo acc.fs g.1 g.2).2⟩ :
              PostOut)) acc).events) := by
  induction groups generalizing acc with
  | nil => intro g hg; simp at hg
  | cons g0 rest ih =>
      simp only [List.map_cons, List.nodup_cons] at hnodup
      obtain ⟨hg0nk, hrestnd⟩ := hnodup
      have hg0md : g0.1.suffix = ".md" := hmd g0 (List.mem_cons_self _ _)
      intro g hg
      simp only [List.foldl_cons]
      set acc2 : PostOut :=
        (⟨(rewriteFileEff wo acc.fs g0.1 g0.2).1,
          acc.events ++ (rewriteFileEff wo acc.fs g0.1 g0.2).2⟩ :
            PostOut) with hacc2
      rcases List.mem_cons.mp hg with hgg | hgg
      · subst hgg
        have hframe : (rest.foldl (fun acc g =>
            (⟨(rewriteFileEff wo acc.fs g.1 g.2).1,
              acc.events ++ (rewriteFileEff wo acc.fs g.1 g.2).2⟩ :
                PostOut)) acc2).fs g.1 = acc2.fs g.1 := by
          apply postLoop_frame
          intro g2 hg2
          constructor
          · intro heq
            exact hg0nk (heq ▸ List.mem_map_of_mem Prod.fst hg2)
          · intro heq
            have : g.1.suffix = ".tmp" := by
              rw [heq]
              rfl
            rw [hg0md] at this
            exact absurd this (by decide)
        obtain ⟨t, hev⟩ := postLoop_events_mono wo rest acc2
        obtain ⟨hnone, hsome⟩ :=
          rewriteFileEff_at_key wo acc.fs g.1 g.2 hg0md
        refine ⟨?_, ?_, ?_⟩
        · rcases hread : acc.fs g.1 with _ | lines
          · left
            rw [hframe, hacc2]
            exact ((hnone hread).1).trans hread
          · rcases hwo : wo g.1 with _ | k | _
            · right
              exact ⟨lines, rfl, by
                rw [hframe, hacc2]
                exact ((hsome lines hread).1 hwo).1⟩
            · left
              rw [hframe, hacc2]
              exact (((hsome lines hread).2 (by simp [hwo])).1).trans hread
            · left
              rw [hframe, hacc2]
              exact (((hsome lines hread).2 (by simp [hwo])).1).trans hread
        · intro lines hread hwo
          refine ⟨by rw [hframe, hacc2]
                     exact ((hsome lines hread).1 hwo).1, ?_⟩
          rw [hev, hacc2]
          simp only [List.mem_append]
          left
          right
          exact ((hsome lines hread).1 hwo).2
        · intro hbad
          have hfs : (rewriteFileEff wo acc.fs g.1 g.2).1 g.1 =
              acc.fs g.1 ∧ Event.rewriteError g.1 ∈
                (rewriteFileEff wo acc.fs g.1 g.2).2 := by
            rcases hbad with hbad | hbad
            · rcases hread : acc.fs g.1 with _ | lines
              · exact ⟨((hnone hread).1).trans hread, (hnone hread).2⟩
              · exact ⟨(((hsome lines hread).2 hbad).1).trans hread,
                  ((hsome lines hread).2 hbad).2⟩
            · exact hnone hbad
          refine ⟨by rw [hframe, hacc2]; exact hfs.1, ?_⟩
          rw [hev, hacc2]
          simp only [List.mem_append]
          left
          right
          exact hfs.2
      · have hstep : acc2.fs g.1 = acc.fs g.1 := by
          rw [hacc2]
          apply rewriteFileEff_frame
          · intro heq
            exact hg0nk (heq ▸ List.mem_map_of_mem Prod.fst hgg)
          · intro heq
            have : g.1.suffix = ".tmp" := by
              rw [heq]
              rfl
            rw [hmd g (List.mem_cons_of_mem g0 hgg)] at this
            exact absurd this (by decide)
        have ihg := ih acc2 hrestnd
          (fun g2 hg2 => hmd g2 (List.mem_cons_of_mem g0 hg2)) g hgg
        rw [hstep] at ihg
        exact ihg


theorem run_postprocessing_false_eq (wo : FPath → WriteOutcome) (fs : Fs)
    (modules : List ModuleState) :
    run_postprocessing wo false fs modules =
      (groupByFile modules).foldl (fun acc g =>
        (⟨(rewriteFileEff wo acc.fs g.1 g.2).1,
          acc.events ++ (rewriteFileEff wo acc.fs g.1 g.2).2⟩ : PostOut))
        ⟨fs, []⟩ := rfl

/-- C4: the rewrite of each grouped document either leaves it untouched
or replaces it with the complete rewritten line sequence — never a
partial sequence; when the write outcome is a failure (or the file cannot
be read) that document is bit-for-bit unmodified and the failure is
reported, while every other document whose own write succeeds is still
rewritten.  (Documents have the `.md` suffix, as produced by discovery
and promotion, so the `.tmp` temporary never collides with a document.) -/
theorem C4_atomic_rewrite_isolation (wo : FPath → WriteOutcome) (fs : Fs)
    (modules : List ModuleState)
    (hmd : ∀ pp ∈ allPPs modules, pp.file_path.suffix = ".md") :
    ∀ g ∈ groupByFile modules,
      ((run_postprocessing wo false fs modules).fs g.1 = fs g.1 ∨
        ∃ lines, fs g.1 = some lines ∧
          (run_postprocessing wo false fs modules).fs g.1 =
            some (rewriteLinesFrom g.1 (buildLineMap g.2) 0 lines).1) ∧
      (∀ lines, fs g.1 = some lines → wo g.1 = WriteOutcome.ok →
        (run_postprocessing wo false fs modules).fs g.1 =
          some (rewriteLinesFrom g.1 (buildLineMap g.2) 0 lines).1 ∧
        Event.rewriteOk g.1 ∈
          (run_postprocessing wo false fs modules).events) ∧
      ((wo g.1 ≠ WriteOutcome.ok ∨ fs g.1 = none) →
        (run_postprocessing wo false fs modules).fs g.1 = fs g.1 ∧
        Event.rewriteError g.1 ∈
          (run_postprocessing wo false fs modules).events) := by
  have hkeys : ∀ g ∈ groupByFile modules, g.1.suffix = ".md" := by
    intro g hg
    obtain ⟨pp, hpp, hpath⟩ := groupByFile_keys modules g hg
    rw [← hpath]
    exact hmd pp hpp
  rw [run_postprocessing_false_eq]
  exact postLoop_main wo (groupByFile modules) ⟨fs, []⟩
    (groupByFile_keys_nodup modules) hkeys

/-- Witness for C4: a concrete one-document state is rewritten in place
with its full rewritten line sequence. -/
theorem C4_atomic_rewrite_isolation_witness :
    (run_postprocessing demoWo false
        (fun p => if p = aMd then some ["x"] else none)
        [⟨demoTagModule, [], [⟨aMd, 0, "x", {}⟩]⟩]).fs aMd =
      some (rewriteLinesFrom aMd
        (buildLineMap [(demoTagModule, ⟨aMd, 0, "x", {}⟩)]) 0 ["x"]).1 ∧
    Event.rewriteOk aMd ∈ (run_postprocessing demoWo false
        (fun p => if p = aMd then some ["x"] else none)
        [⟨demoTagModule, [], [⟨aMd, 0, "x", {}⟩]⟩]).events :=
  (C4_atomic_rewrite_isolation demoWo
      (fun p => if p = aMd then some ["x"] else none)
      [⟨demoTagModule, [], [⟨aMd, 0, "x", {}⟩]⟩] (by decide)
      (aMd, [(demoTagModule, ⟨aMd, 0, "x", {}⟩)])
      (List.Mem.head _)).2.1 ["x"] (by decide) rfl


theorem run_preprocessing_tally (pre : PreOracle)
    (modules : List ModuleState) :
    (run_preprocessing pre false modules).completed +
      (run_preprocessing pre false modules).failed =
      (jobList modules).length := by
  unfold run_preprocessing
  simp only [Bool.false_eq_true, if_false]
  have main : ∀ (jobs : List (String × Job)) (acc : PreOut),
      (jobs.foldl (fun acc x =>
        match pre x.1 x.2 with
        | PreOutcome.ok =>
            ⟨acc.completed + 1, acc.failed,
             acc.events ++ [Event.preprocessRun x.2]⟩
        | PreOutcome.failed =>
            ⟨acc.completed, acc.failed + 1,
             acc.events ++ [Event.preprocessRun x.2]⟩
        | PreOutcome.raised =>
            ⟨acc.completed, acc.failed + 1,
             acc.events ++ [Event.preprocessRun x.2,
               Event.preprocessError x.2.file_path x.2.line_no]⟩) acc).completed
        + (jobs.foldl (fun acc x =>
          match pre x.1 x.2 with
          | PreOutcome.ok =>
              ⟨acc.completed + 1, acc.failed,
               acc.events ++ [Event.preprocessRun x.2]⟩
          | PreOutcome.failed =>
              ⟨acc.completed, acc.failed + 1,
               acc.events ++ [Event.preprocessRun x.2]⟩
          | PreOutcome.raised =>
              ⟨acc.completed, acc.failed + 1,
               acc.events ++ [Event.preprocessRun x.2,
                 Event.preprocessError x.2.file_path x.2.line_no]⟩)
          acc).failed =
        acc.completed + acc.failed + jobs.length := by
    intro jobs
    induction jobs with
    | nil => intro acc; simp
    | cons x rest ih =>
        intro acc
        simp only [List.foldl_cons, List.length_cons]
        rcases pre x.1 x.2 <;>
          (rw [ih]
           simp only []
           omega)
  rw [main]
  simp

theorem run_preprocessing_events_mono (pre : PreOracle)
    (jobs : List (String × Job)) (acc : PreOut) :
    ∃ t, (jobs.foldl (fun acc x =>
      match pre x.1 x.2 with
      | PreOutcome.ok =>
          (⟨acc.completed + 1, acc.failed,
           acc.events ++ [Event.preprocessRun x.2]⟩ : PreOut)
      | PreOutcome.failed =>
          ⟨acc.completed, acc.failed + 1,
           acc.events ++ [Event.preprocessRun x.2]⟩
      | PreOutcome.raised =>
          ⟨acc.completed, acc.failed + 1,
           acc.events ++ [Event.preprocessRun x.2,
             Event.preprocessError x.2.file_path x.2.line_no]⟩) acc).events
      = acc.events ++ t := by
  induction jobs generalizing acc with
  | nil => exact ⟨[], by simp⟩
  | cons x rest ih =>
      simp only [List.foldl_cons]
      rcases hx : pre x.1 x.2
      · obtain ⟨t, ht⟩ := ih ⟨acc.completed + 1, acc.failed,
          acc.events ++ [Event.preprocessRun x.2]⟩
        exact ⟨[Event.preprocessRun x.2] ++ t, by rw [ht]; simp⟩
      · obtain ⟨t, ht⟩ := ih ⟨acc.completed, acc.failed + 1,
          acc.events ++ [Event.preprocessRun x.2]⟩
        exact ⟨[Event.preprocessRun x.2] ++ t, by rw [ht]; simp⟩
      · obtain ⟨t, ht⟩ := ih ⟨acc.completed, acc.failed + 1,
          acc.events ++ [Event.preprocessRun x.2,
            Event.preprocessError x.2.file_path x.2.line_no]⟩
        exact ⟨[Event.preprocessRun x.2,
          Event.preprocessError x.2.file_path x.2.line_no] ++ t,
          by rw [ht]; simp⟩

theorem run_preprocessing_raised_reported (pre : PreOracle)
    (modules : List ModuleState) :
    ∀ x ∈ jobList modules, pre x.1 x.2 = PreOutcome.raised →
      Event.preprocessError x.2.file_path x.2.line_no ∈
        (run_preprocessing pre false modules).events := by
  unfold run_preprocessing
  simp only [Bool.false_eq_true, if_false]
  have main : ∀ (jobs : List (String × Job)) (acc : PreOut),
      ∀ x ∈ jobs, pre x.1 x.2 = PreOutcome.raised →
      Event.preprocessError x.2.file_path x.2.line_no ∈
        (jobs.foldl (fun acc x =>
          match pre x.1 x.2 with
          | PreOutcome.ok =>
              (⟨acc.completed + 1, acc.failed,
               acc.events ++ [Event.preprocessRun x.2]⟩ : PreOut)
          | PreOutcome.failed =>
              ⟨acc.completed, acc.failed + 1,
               acc.events ++ [Event.preprocessRun x.2]⟩
          | PreOutcome.raised =>
              ⟨acc.completed, acc.failed + 1,
               acc.events ++ [Event.preprocessRun x.2,
                 Event.preprocessError x.2.file_path x.2.line_no]⟩)
          acc).events := by
    intro jobs
    induction jobs with
    | nil => intro acc x hx; simp at hx
    | cons y rest ih =>
        intro acc x hx hraised
        simp only [List.foldl_cons]
        rcases List.mem_cons.mp hx with hxy | hxr
        · subst hxy
          rw [hraised]
          obtain ⟨t, ht⟩ := run_preprocessing_events_mono pre rest
            ⟨acc.completed, acc.failed + 1,
             acc.events ++ [Event.preprocessRun x.2,
               Event.preprocessError x.2.file_path x.2.line_no]⟩
          rw [ht]
          simp
        · rcases hy : pre y.1 y.2 <;> exact ih _ x hxr hraised
  intro x hx hraised
  exact main (jobList modules) ⟨0, 0, []⟩ x hx hraised

/-- C9: preprocessing outcomes are only tallied — every job's outcome is
collected (completed plus failed equals the number of submitted jobs), a
raised error is reported with the job's document and line and aborts no
sibling job, and the rewrite phase (final filesystem and rewrite-phase
events) is identical under any two preprocess outcome oracles — so every
tagged line's `postprocess` runs whether or not its job's `preprocess`
returned false or raised. -/
theorem C9_rewrite_independent_of_preprocess (pre pre2 : PreOracle)
    (wo : FPath → WriteOutcome) (dry : Bool)
    (modules : List ModuleState) (files : List FPath) (fs : Fs) :
    ((run_preprocessing pre false modules).completed +
      (run_preprocessing pre false modules).failed =
      (jobList modules).length) ∧
    (∀ x ∈ jobList modules, pre x.1 x.2 = PreOutcome.raised →
      Event.preprocessError x.2.file_path x.2.line_no ∈
        (run_preprocessing pre false modules).events) ∧
    (process_all pre wo dry modules files fs).fs =
      (process_all pre2 wo dry modules files fs).fs ∧
    (process_all pre wo dry modules files fs).postEvents =
      (process_all pre2 wo dry modules files fs).postEvents :=
  ⟨run_preprocessing_tally pre modules,
   run_preprocessing_raised_reported pre modules, rfl, rfl⟩

/-- Witness for C9: with an always-raising oracle the single job of a
concrete module is tallied as a failure and its error is reported with
document and line. -/
theorem C9_rewrite_independent_of_preprocess_witness :
    ((run_preprocessing (fun _ _ => PreOutcome.raised) false
        [⟨demoTagModule, [⟨aMd, 0, "x", "tagger", {}⟩], []⟩]).completed +
      (run_preprocessing (fun _ _ => PreOutcome.raised) false
        [⟨demoTagModule, [⟨aMd, 0, "x", "tagger", {}⟩], []⟩]).failed =
      (jobList [⟨demoTagModule, [⟨aMd, 0, "x", "tagger", {}⟩], []⟩]).length)
    ∧ Event.preprocessError aMd 0 ∈
        (run_preprocessing (fun _ _ => PreOutcome.raised) false
          [⟨demoTagModule, [⟨aMd, 0, "x", "tagger", {}⟩], []⟩]).events :=
  ⟨(C9_rewrite_independent_of_preprocess (fun _ _ => PreOutcome.raised)
      demoOracle demoWo false
      [⟨demoTagModule, [⟨aMd, 0, "x", "tagger", {}⟩], []⟩] [] demoFs).1,
   (C9_rewrite_independent_of_preprocess (fun _ _ => PreOutcome.raised)
      demoOracle demoWo false
      [⟨demoTagModule, [⟨aMd, 0, "x", "tagger", {}⟩], []⟩] [] demoFs).2.1
      ("tagger", ⟨aMd, 0, "x", "tagger", {}⟩) (by decide) rfl⟩


theorem scanOneModule_noexpand (fp : FPath) (ln : Nat) (l : String)
    (m : ModuleState)
    (h : ∀ fp2 ln2 l2, (m.spec.probe fp2 ln2 l2).1 ≠ Action.EXPAND) :
    (scanOneModule fp ln l m).2 = false := by
  unfold scanOneModule
  by_cases hr : m.spec.regexMatch l
  · rw [if_pos hr]
    have hp := h fp ln l
    rcases hq : m.spec.probe fp ln l with ⟨act, md⟩
    rw [hq] at hp
    cases act
    · rfl
    · rfl
    · rfl
    · rfl
    · exact absurd rfl hp
  · rw [if_neg hr]

theorem scanModulesOnLine_noexpand (fp : FPath) (ln : Nat) (l : String)
    (ms : List ModuleState)
    (h : ∀ spec ∈ ms.map ModuleState.spec, ∀ fp2 ln2 l2,
      (spec.probe fp2 ln2 l2).1 ≠ Action.EXPAND) :
    (scanModulesOnLine fp ln l ms).2 = false := by
  induction ms with
  | nil => rfl
  | cons m rest ih =>
      simp only [scanModulesOnLine]
      rw [scanOneModule_noexpand fp ln l m
        (h m.spec (by simp)), ih (fun spec hs => h spec
        (by simp only [List.map_cons, List.mem_cons]; exact Or.inr hs))]
      rfl

theorem scanLinesFrom_noexpand (fp : FPath) (ln : Nat) (ls : List String)
    (ms : List ModuleState)
    (h : ∀ spec ∈ ms.map ModuleState.spec, ∀ fp2 ln2 l2,
      (spec.probe fp2 ln2 l2).1 ≠ Action.EXPAND) :
    (scanLinesFrom fp ln ls ms).2 = false := by
  induction ls generalizing ln ms with
  | nil => rfl
  | cons l rest ih =>
      simp only [scanLinesFrom]
      rw [scanModulesOnLine_noexpand fp ln l ms h,
        ih (ln + 1) (scanModulesOnLine fp ln l ms).1
          (by rw [scanModulesOnLine_spec]; exact h)]
      rfl

theorem process_file_noflag (fs : Fs) (st : ProcState) (fp : FPath)
    (lines : List String) (hmem : fp ∉ st.expanded_files)
    (hread : fs fp = some lines)
    (hflag : (scanLinesFrom fp 0 lines st.modules).2 = false) :
    process_file fs st fp =
      ({ st with modules := (scanLinesFrom fp 0 lines st.modules).1 }, fs,
       [Event.scanned fp]) := by
  simp [process_file, hmem, hread, hflag]

theorem scanSteps_dry_indep (fuel : Nat) (fs : Fs)
    (modules : List ModuleState) (exp q : List FPath)
    (hne : ∀ spec ∈ modules.map ModuleState.spec, ∀ fp ln l,
      (spec.probe fp ln l).1 ≠ Action.EXPAND) :
    (scanSteps fuel fs ⟨modules, true, exp, q⟩).fs =
      (scanSteps fuel fs ⟨modules, false, exp, q⟩).fs ∧
    (scanSteps fuel fs ⟨modules, true, exp, q⟩).st.modules =
      (scanSteps fuel fs ⟨modules, false, exp, q⟩).st.modules ∧
    (scanSteps fuel fs ⟨modules, true, exp, q⟩).pops =
      (scanSteps fuel fs ⟨modules, false, exp, q⟩).pops := by
  induction fuel generalizing fs modules exp q with
  | zero => exact ⟨rfl, rfl, rfl⟩
  | succ n ih =>
      cases hq : q with
      | nil => exact ⟨rfl, rfl, rfl⟩
      | cons fp rest =>
          simp only [scanSteps]
          by_cases hmem : fp ∈ exp
          · have h1 : process_file fs ⟨modules, true, exp, rest⟩ fp =
                (⟨modules, true, exp, rest⟩, fs,
                 [Event.skippedExpanded fp]) := by
              simp [process_file, hmem]
            have h2 : process_file fs ⟨modules, false, exp, rest⟩ fp =
                (⟨modules, false, exp, rest⟩, fs,
                 [Event.skippedExpanded fp]) := by
              simp [process_file, hmem]
            rw [h1, h2]
            obtain ⟨e1, e2, e3⟩ := ih fs modules exp rest hne
            exact ⟨e1, e2, by rw [e3]⟩
          · rcases hread : fs fp with _ | lines
            · have h1 : process_file fs ⟨modules, true, exp, rest⟩ fp =
                  (⟨modules, true, exp, rest⟩, fs, [Event.readError fp]) := by
                simp [process_file, hmem, hread]
              have h2 : process_file fs ⟨modules, false, exp, rest⟩ fp =
                  (⟨modules, false, exp, rest⟩, fs,
                   [Event.readError fp]) := by
                simp [process_file, hmem, hread]
              rw [h1, h2]
              obtain ⟨e1, e2, e3⟩ := ih fs modules exp rest hne
              exact ⟨e1, e2, by rw [e3]⟩
            · have hflag : (scanLinesFrom fp 0 lines modules).2 = false :=
                scanLinesFrom_noexpand fp 0 lines modules hne
              have h1 := process_file_noflag fs ⟨modules, true, exp, rest⟩
                fp lines hmem hread hflag
              have h2 := process_file_noflag fs ⟨modules, false, exp, rest⟩
                fp lines hmem hread hflag
              rw [h1, h2]
              obtain ⟨e1, e2, e3⟩ := ih fs
                (scanLinesFrom fp 0 lines modules).1 exp rest
                (by rw [scanLinesFrom_spec]; exact hne)
              exact ⟨e1, e2, by rw [e3]⟩

theorem process_file_dry_keeps (fs : Fs) (st : ProcState) (fp : FPath)
    (hdry : st.dry_run = true) :
    (process_file fs st fp).2.1 = fs ∧
    (process_file fs st fp).1.dry_run = true := by
  rcases process_file_char fs st fp with ⟨_, hc⟩ | ⟨_, _, hc⟩
    | ⟨_, _, _, _, hc⟩ | ⟨_, _, _, _, _, hc⟩ | ⟨_, _, _, _, _, _, hc⟩
    | ⟨_, _, _, _, _, _, hdry2, _, hc⟩
    | ⟨_, _, _, _, _, hdry2, _, hc⟩ <;> rw [hc]
  · exact ⟨rfl, hdry⟩
  · exact ⟨rfl, hdry⟩
  · exact ⟨rfl, hdry⟩
  · exact ⟨rfl, hdry⟩
  · exact ⟨rfl, hdry⟩
  · rw [hdry] at hdry2; exact absurd hdry2 (by simp)
  · rw [hdry] at hdry2; exact absurd hdry2 (by simp)

theorem scanSteps_dry_fs (fuel : Nat) (fs : Fs) (st : ProcState)
    (hdry : st.dry_run = true) :
    (scanSteps fuel fs st).fs = fs ∧
    (scanSteps fuel fs st).st.dry_run = true := by
  induction fuel generalizing fs st with
  | zero => exact ⟨rfl, hdry⟩
  | succ n ih =>
      cases hq : st.files_to_process with
      | nil =>
          constructor
          · simp [scanSteps, hq]
          · simp only [scanSteps, hq]
            exact hdry
      | cons fp rest =>
          simp only [scanSteps, hq]
          obtain ⟨h1, h2⟩ := process_file_dry_keeps fs
            { st with files_to_process := rest } fp hdry
          obtain ⟨h3, h4⟩ := ih (process_file fs
            { st with files_to_process := rest } fp).2.1
            (process_file fs { st with files_to_process := rest } fp).1 h2
          exact ⟨by rw [h3, h1], h4⟩

theorem run_postprocessing_dry (wo : FPath → WriteOutcome) (fs : Fs)
    (modules : List ModuleState) :
    (run_postprocessing wo true fs modules).fs = fs := by
  unfold run_postprocessing
  have main : ∀ (groups : List (FPath ×
      List (ModuleSpec × PostprocessLine))) (acc : PostOut),
      (groups.foldl (fun acc g =>
        if true then
          (⟨acc.fs, acc.events ++ [Event.dryRunPost g.1 g.2.length]⟩ :
            PostOut)
        else
          let r := rewriteFileEff wo acc.fs g.1 g.2
          ⟨r.1, acc.events ++ r.2⟩) acc).fs = acc.fs := by
    intro groups
    induction groups with
    | nil => intro acc; rfl
    | cons g rest ih =>
        intro acc
        rw [List.foldl_cons]
        exact ih _
  exact main (groupByFile modules) ⟨fs, []⟩

/-- Counterexample to C3 as stated: with the image-localizer probe
behaviour and a single document triggering expansion, a dry run and a
real run produce different classification counts (the real run re-scans
the promoted document and re-creates its jobs under the new identity; the
dry run does neither). -/
theorem C3_dry_run_counts_counterexample :
    (process_all demoOracle demoWo true [demoModuleState] [aMd]
      demoFs).counts ≠
    (process_all demoOracle demoWo false [demoModuleState] [aMd]
      demoFs).counts := by
  decide

/-- C3 (amended): a dry run never creates, moves, or modifies any
document (the filesystem is returned unchanged), and for every
configuration in which no active detector's probe ever returns `Expand`,
a dry run and a real run produce identical classification counts
(documents scanned, jobs created, lines tagged). -/
theorem C3_dry_run_amended (pre : PreOracle) (wo : FPath → WriteOutcome)
    (modules : List ModuleState) (files : List FPath) (fs : Fs) :
    (process_all pre wo true modules files fs).fs = fs ∧
    ((∀ spec ∈ modules.map ModuleState.spec, ∀ fp ln l,
        (spec.probe fp ln l).1 ≠ Action.EXPAND) →
      (process_all pre wo true modules files fs).counts =
        (process_all pre wo false modules files fs).counts) := by
  constructor
  · show (run_postprocessing wo true (scanSteps (scanFuel files) fs
      ⟨modules, true, [], files⟩).fs (scanSteps (scanFuel files) fs
      ⟨modules, true, [], files⟩).st.modules).fs = fs
    rw [run_postprocessing_dry]
    exact (scanSteps_dry_fs (scanFuel files) fs
      ⟨modules, true, [], files⟩ rfl).1
  · intro hne
    obtain ⟨e1, e2, e3⟩ := scanSteps_dry_indep (scanFuel files) fs
      modules [] files hne
    show (⟨(scanSteps (scanFuel files) fs
        ⟨modules, true, [], files⟩).pops.length,
      (allJobs (scanSteps (scanFuel files) fs
        ⟨modules, true, [], files⟩).st.modules).length,
      (allPPs (scanSteps (scanFuel files) fs
        ⟨modules, true, [], files⟩).st.modules).length⟩ : RunCounts) =
      ⟨(scanSteps (scanFuel files) fs
        ⟨modules, false, [], files⟩).pops.length,
      (allJobs (scanSteps (scanFuel files) fs
        ⟨modules, false, [], files⟩).st.modules).length,
      (allPPs (scanSteps (scanFuel files) fs
        ⟨modules, false, [], files⟩).st.modules).length⟩
    rw [e2, e3]

/-- Witness for C3 (amended): with a detector that never requests
expansion, the dry and real counts agree on a concrete corpus. -/
theorem C3_dry_run_amended_witness :
    (process_all demoOracle demoWo true [demoTagModuleState] [aMd]
      demoFs).counts =
    (process_all demoOracle demoWo false [demoTagModuleState] [aMd]
      demoFs).counts :=
  (C3_dry_run_amended demoOracle demoWo [demoTagModuleState] [aMd]
    demoFs).2
    (by
      intro spec hs fp ln l
      simp only [List.map_cons, List.map_nil, List.mem_singleton] at hs
      rw [hs]
      intro h
      exact Action.noConfusion h)


theorem map_purge_spec (fp : FPath) (ms : List ModuleState) :
    (ms.map (purge fp)).map ModuleState.spec = ms.map ModuleState.spec := by
  induction ms with
  | nil => rfl
  | cons m rest ih =>
      simp only [List.map_cons]
      rw [ih]
      rfl

theorem process_file_specs (fs : Fs) (st : ProcState) (fp : FPath) :
    (process_file fs st fp).1.modules.map ModuleState.spec =
      st.modules.map ModuleState.spec := by
  rcases process_file_char fs st fp with ⟨_, hc⟩ | ⟨_, _, hc⟩
    | ⟨_, _, _, _, hc⟩ | ⟨_, _, _, _, _, hc⟩ | ⟨_, _, _, _, _, _, hc⟩
    | ⟨_, _, _, _, _, _, _, _, hc⟩ | ⟨_, _, _, _, _, _, _, hc⟩ <;> rw [hc]
  · exact scanLinesFrom_spec _ _ _ _
  · exact scanLinesFrom_spec _ _ _ _
  · exact scanLinesFrom_spec _ _ _ _
  · exact scanLinesFrom_spec _ _ _ _
  · show ((((scanLinesFrom fp 0 _ st.modules).1).map (purge fp)).map
      ModuleState.spec) = _
    rw [map_purge_spec, scanLinesFrom_spec]

theorem scanOneModule_ignore (fp : FPath) (ln : Nat) (l : String)
    (m : ModuleState)
    (h : m.spec.regexMatch l = true →
      (m.spec.probe fp ln l).1 = Action.IGNORE) :
    scanOneModule fp ln l m = (m, false) := by
  unfold scanOneModule
  by_cases hr : m.spec.regexMatch l
  · rw [if_pos hr]
    have hp := h hr
    rcases hq : m.spec.probe fp ln l with ⟨act, md⟩
    rw [hq] at hp
    cases act
    · rfl
    · exact absurd hp (by simp)
    · exact absurd hp (by simp)
    · exact absurd hp (by simp)
    · exact absurd hp (by simp)
  · rw [if_neg hr]

theorem scanModulesOnLine_ignore (fp : FPath) (ln : Nat) (l : String)
    (ms : List ModuleState)
    (h : ∀ spec ∈ ms.map ModuleState.spec, spec.regexMatch l = true →
      (spec.probe fp ln l).1 = Action.IGNORE) :
    scanModulesOnLine fp ln l ms = (ms, false) := by
  induction ms with
  | nil => rfl
  | cons m rest ih =>
      simp only [scanModulesOnLine]
      rw [scanOneModule_ignore fp ln l m (h m.spec (by simp)),
        ih (fun spec hs => h spec
          (by simp only [List.map_cons, List.mem_cons]; exact Or.inr hs))]
      rfl

theorem scanLinesFrom_ignore (fp : FPath) (ln : Nat) (ls : List String)
    (ms : List ModuleState)
    (h : ∀ spec ∈ ms.map ModuleState.spec, ∀ j l2,
      ls.get? j = some l2 → spec.regexMatch l2 = true →
      (spec.probe fp (ln + j) l2).1 = Action.IGNORE) :
    scanLinesFrom fp ln ls ms = (ms, false) := by
  induction ls generalizing ln ms with
  | nil => rfl
  | cons l rest ih =>
      simp only [scanLinesFrom]
      rw [scanModulesOnLine_ignore fp ln l ms
        (fun spec hs hr => by
          have := h spec hs 0 l (by simp) hr
          rwa [Nat.add_zero] at this)]
      rw [ih (ln + 1) ms (fun spec hs j l2 hj hr => by
        have := h spec hs (j + 1) l2 (by simpa using hj) hr
        rwa [show ln + (j + 1) = ln + 1 + j by omega] at this)]
      rfl

theorem process_file_at_pristine (fs : Fs) (st : ProcState) (D : FPath)
    (dlines : List String) (hD : fs D = some dlines)
    (hprobe : ∀ spec ∈ st.modules.map ModuleState.spec, ∀ i l,
      dlines.get? i = some l → spec.regexMatch l = true →
      (spec.probe D i l).1 = Action.IGNORE) :
    process_file fs st D = (st, fs, [Event.scanned D]) ∨
    process_file fs st D = (st, fs, [Event.skippedExpanded D]) := by
  by_cases hmem : D ∈ st.expanded_files
  · right
    simp [process_file, hmem]
  · left
    have hscan : scanLinesFrom D 0 dlines st.modules =
        (st.modules, false) := by
      apply scanLinesFrom_ignore
      intro spec hs j l2 hj hr
      have := hprobe spec hs j l2 hj hr
      rwa [Nat.zero_add]
    rw [process_file_noflag fs st D dlines hmem hD (by rw [hscan])]
    rw [hscan]

theorem rewriteFileEff_events_shape (wo : FPath → WriteOutcome) (fs : Fs)
    (fp : FPath) (tagged : List (ModuleSpec × PostprocessLine)) :
    ∀ e ∈ (rewriteFileEff wo fs fp tagged).2,
      (∃ k name, e = Event.rewroteLine fp k name) ∨
      e = Event.rewriteOk fp ∨ e = Event.rewriteError fp := by
  unfold rewriteFileEff
  rcases fs fp with _ | lines
  · intro e he
    simp at he
    exact Or.inr (Or.inr he)
  · rcases wo fp with _ | k | _ <;>
      (intro e he
       simp only [List.mem_append] at he
       rcases he with he | he
       · obtain ⟨k2, name, hname, _, _⟩ :=
           rewriteLinesFrom_events fp (buildLineMap tagged) 0 lines e he
         exact Or.inl ⟨k2, name, hname⟩
       · simp at he
         first
           | exact Or.inr (Or.inl he)
           | exact Or.inr (Or.inr he))

theorem postLoop_events_keys (wo : FPath → WriteOutcome)
    (groups : List (FPath × List (ModuleSpec × PostprocessLine)))
    (acc : PostOut) (q : FPath)
    (hacc : Event.rewriteOk q ∉ acc.events ∧
      Event.rewriteError q ∉ acc.events)
    (hq : ∀ g ∈ groups, q ≠ g.1) :
    Event.rewriteOk q ∉ (groups.foldl (fun acc g =>
      (⟨(rewriteFileEff wo acc.fs g.1 g.2).1,
        acc.events ++ (rewriteFileEff wo acc.fs g.1 g.2).2⟩ : PostOut))
      acc).events ∧
    Event.rewriteError q ∉ (groups.foldl (fun acc g =>
      (⟨(rewriteFileEff wo acc.fs g.1 g.2).1,
        acc.events ++ (rewriteFileEff wo acc.fs g.1 g.2).2⟩ : PostOut))
      acc).events := by
  induction groups generalizing acc with
  | nil => exact hacc
  | cons g rest ih =>
      simp only [List.foldl_cons]
      refine ih _ ?_ (fun g2 hg2 => hq g2 (List.mem_cons_of_mem g hg2))
      have hne := hq g (List.mem_cons_self _ _)
      constructor
      · intro hmem
        simp only [List.mem_append] at hmem
        rcases hmem with hmem | hmem
        · exact hacc.1 hmem
        · rcases rewriteFileEff_events_shape wo acc.fs g.1 g.2 _ hmem with
            ⟨k, name, hk⟩ | hk | hk
          · exact Event.noConfusion hk
          · rw [Event.rewriteOk.injEq] at hk
            exact hne hk
          · exact Event.noConfusion hk
      · intro hmem
        simp only [List.mem_append] at hmem
        rcases hmem with hmem | hmem
        · exact hacc.2 hmem
        · rcases rewriteFileEff_events_shape wo acc.fs g.1 g.2 _ hmem with
            ⟨k, name, hk⟩ | hk | hk
          · exact Event.noConfusion hk
          · exact Event.noConfusion hk
          · rw [Event.rewriteError.injEq] at hk
            exact hne hk


theorem process_file_pristine_step (fs : Fs) (st : ProcState)
    (fp D : FPath) (dlines : List String) (hD : fs D = some dlines)
    (hJ : ∀ j ∈ allJobs st.modules, j.file_path ≠ D)
    (hP : ∀ pp ∈ allPPs st.modules, pp.file_path ≠ D)
    (hprobe : ∀ spec ∈ st.modules.map ModuleState.spec, ∀ i l,
      dlines.get? i = some l → spec.regexMatch l = true →
      (spec.probe D i l).1 = Action.IGNORE) :
    (process_file fs st fp).2.1 D = some dlines ∧
    (∀ j ∈ allJobs (process_file fs st fp).1.modules, j.file_path ≠ D) ∧
    (∀ pp ∈ allPPs (process_file fs st fp).1.modules,
      pp.file_path ≠ D) ∧
    (∀ nf, Event.expandedEv D nf ∉ (process_file fs st fp).2.2) := by
  by_cases hfp : fp = D
  · subst hfp
    rcases process_file_at_pristine fs st fp dlines hD hprobe with hr | hr <;>
      rw [hr] <;>
      exact ⟨hD, hJ, hP, by intro nf hmem; simp at hmem⟩
  · have hJ2 : ∀ lines : List String,
        ∀ j ∈ allJobs (scanLinesFrom fp 0 lines st.modules).1,
          j.file_path ≠ D := by
      intro lines j hjm
      rcases scanLinesFrom_jobs fp 0 lines st.modules j hjm with hh | hh
      · exact hJ j hh
      · rw [hh]; exact hfp
    have hP2 : ∀ lines : List String,
        ∀ pp ∈ allPPs (scanLinesFrom fp 0 lines st.modules).1,
          pp.file_path ≠ D := by
      intro lines pp hppm
      rcases scanLinesFrom_pps fp 0 lines st.modules pp hppm with hh | hh
      · exact hP pp hh
      · rw [hh]; exact hfp
    rcases process_file_char fs st fp with ⟨_, hc⟩ | ⟨_, _, hc⟩
      | ⟨lines, _, _, _, hc⟩ | ⟨lines, _, _, _, _, hc⟩
      | ⟨lines, _, _, _, _, _, hc⟩
      | ⟨lines, content, _, _, _, _, _, _, hc⟩
      | ⟨lines, _, hread, _, _, _, htgt, hc⟩ <;> rw [hc]
    · exact ⟨hD, hJ, hP, by intro nf hmem; simp at hmem⟩
    · exact ⟨hD, hJ, hP, by intro nf hmem; simp at hmem⟩
    · exact ⟨hD, hJ2 lines, hP2 lines, by intro nf hmem; simp at hmem⟩
    · exact ⟨hD, hJ2 lines, hP2 lines, by intro nf hmem; simp at hmem⟩
    · exact ⟨hD, hJ2 lines, hP2 lines, by intro nf hmem; simp at hmem⟩
    · exact ⟨hD, hJ2 lines, hP2 lines, by intro nf hmem; simp at hmem⟩
    · have hDnf : D ≠ expandTarget fp := by
        intro heq
        rw [← heq] at htgt
        rw [htgt] at hD
        exact Option.noConfusion hD
      refine ⟨?_, ?_, ?_, ?_⟩
      · simp only [fsUpd]
        rw [if_neg (fun h : D = fp => hfp h.symm), if_neg hDnf]
        exact hD
      · intro j hjm
        obtain ⟨hj1, _⟩ := mem_allJobs_purge_map fp _ j hjm
        exact hJ2 lines j hj1
      · intro pp hppm
        obtain ⟨hp1, _⟩ := mem_allPPs_purge_map fp _ pp hppm
        exact hP2 lines pp hp1
      · intro nf hmem
        simp only [List.mem_cons, List.mem_singleton] at hmem
        rcases hmem with hmem | hmem
        · exact Event.noConfusion hmem
        · rcases hmem with hmem | hmem
          · rw [Event.expandedEv.injEq] at hmem
            exact hfp hmem.1.symm
          · simp at hmem

theorem scanSteps_pristine (fuel : Nat) (fs : Fs) (st : ProcState)
    (D : FPath) (dlines : List String) (hD : fs D = some dlines)
    (hJ : ∀ j ∈ allJobs st.modules, j.file_path ≠ D)
    (hP : ∀ pp ∈ allPPs st.modules, pp.file_path ≠ D)
    (hprobe : ∀ spec ∈ st.modules.map ModuleState.spec, ∀ i l,
      dlines.get? i = some l → spec.regexMatch l = true →
      (spec.probe D i l).1 = Action.IGNORE) :
    (scanSteps fuel fs st).fs D = some dlines ∧
    (∀ j ∈ allJobs (scanSteps fuel fs st).st.modules, j.file_path ≠ D) ∧
    (∀ pp ∈ allPPs (scanSteps fuel fs st).st.modules,
      pp.file_path ≠ D) ∧
    (∀ nf, Event.expandedEv D nf ∉ (scanSteps fuel fs st).events) := by
  induction fuel generalizing fs st with
  | zero => exact ⟨hD, hJ, hP, by intro nf hmem; simp [scanSteps] at hmem⟩
  | succ n ih =>
      cases hq : st.files_to_process with
      | nil =>
          simp only [scanSteps, hq]
          exact ⟨hD, hJ, hP, by intro nf hmem; simp at hmem⟩
      | cons fp rest =>
          simp only [scanSteps, hq]
          obtain ⟨s1, s2, s3, s4⟩ := process_file_pristine_step fs
            { st with files_to_process := rest } fp D dlines hD hJ hP
            hprobe
          have hprobe2 : ∀ spec ∈ (process_file fs
              { st with files_to_process := rest } fp).1.modules.map
                ModuleState.spec, ∀ i l,
              dlines.get? i = some l → spec.regexMatch l = true →
              (spec.probe D i l).1 = Action.IGNORE := by
            rw [process_file_specs]
            exact hprobe
          obtain ⟨e1, e2, e3, e4⟩ := ih _ _ s1 s2 s3 hprobe2
          refine ⟨e1, e2, e3, ?_⟩
          intro nf hmem
          simp only [List.mem_append] at hmem
          rcases hmem with hmem | hmem
          · exact s4 nf hmem
          · exact e4 nf hmem

/-- C6: a document none of whose lines draws a non-Ignore probe from any
active detector is pristine after a full (real) run: its content is
unchanged, it is never promoted, it never appears in the rewrite
grouping, and it is never rewritten (no rewrite success or failure event
mentions it).  Documents carry the `.md` suffix produced by discovery. -/
theorem C6_untouched_document_pristine (pre : PreOracle)
    (wo : FPath → WriteOutcome) (modules : List ModuleState)
    (files : List FPath) (fs : Fs) (D : FPath) (dlines : List String)
    (hD : fs D = some dlines) (hsfx : D.suffix = ".md")
    (hinitJ : ∀ j ∈ allJobs modules, j.file_path ≠ D)
    (hinitP : ∀ pp ∈ allPPs modules, pp.file_path ≠ D)
    (hprobe : ∀ spec ∈ modules.map ModuleState.spec, ∀ i l,
      dlines.get? i = some l → spec.regexMatch l = true →
      (spec.probe D i l).1 = Action.IGNORE) :
    (process_all pre wo false modules files fs).fs D = some dlines ∧
    (∀ nf, Event.expandedEv D nf ∉
      (process_all pre wo false modules files fs).events) ∧
    lookupEntry (groupByFile
      (process_all pre wo false modules files fs).st.modules) D = none ∧
    Event.rewriteOk D ∉
      (process_all pre wo false modules files fs).events ∧
    Event.rewriteError D ∉
      (process_all pre wo false modules files fs).events := by
  obtain ⟨e1, e2, e3, e4⟩ := scanSteps_pristine (scanFuel files) fs
    ⟨modules, false, [], files⟩ D dlines hD hinitJ hinitP hprobe
  have hkeys : ∀ g ∈ groupByFile (scanSteps (scanFuel files) fs
      ⟨modules, false, [], files⟩).st.modules, D ≠ g.1 := by
    intro g hg heq
    obtain ⟨pp, hpp, hpath⟩ := groupByFile_keys _ g hg
    exact e3 pp hpp (by rw [hpath, heq])
  have hfsfinal : (process_all pre wo false modules files fs).fs D =
      some dlines := by
    show (run_postprocessing wo false (scanSteps (scanFuel files) fs
      ⟨modules, false, [], files⟩).fs (scanSteps (scanFuel files) fs
      ⟨modules, false, [], files⟩).st.modules).fs D = some dlines
    rw [run_postprocessing_false_eq]
    rw [postLoop_frame]
    · exact e1
    · intro g hg
      refine ⟨hkeys g hg, ?_⟩
      intro heq
      have : D.suffix = ".tmp" := congrArg FPath.suffix heq
      rw [hsfx] at this
      exact absurd this (by decide)
  have hpre : ∀ e ∈ (process_all pre wo false modules files
      fs).preEvents, isPreEv e = true :=
    run_preprocessing_events_pre _ _ _
  have hpost := postLoop_events_keys wo (groupByFile
    (scanSteps (scanFuel files) fs
      ⟨modules, false, [], files⟩).st.modules)
    ⟨(scanSteps (scanFuel files) fs ⟨modules, false, [], files⟩).fs, []⟩
    D (by constructor <;> intro h <;> simp at h) hkeys
  have hpostEv : (process_all pre wo false modules files fs).postEvents =
      ((groupByFile (scanSteps (scanFuel files) fs
        ⟨modules, false, [], files⟩).st.modules).foldl (fun acc g =>
        (⟨(rewriteFileEff wo acc.fs g.1 g.2).1,
          acc.events ++ (rewriteFileEff wo acc.fs g.1 g.2).2⟩ : PostOut))
        ⟨(scanSteps (scanFuel files) fs
          ⟨modules, false, [], files⟩).fs, []⟩).events := by
    show (run_postprocessing wo false _ _).events = _
    rw [run_postprocessing_false_eq]
  have hscanEv : ∀ e ∈ (process_all pre wo false modules files
      fs).scanEvents, isScanEv e = true :=
    scanSteps_events_scan _ _ _
  refine ⟨hfsfinal, ?_, ?_, ?_, ?_⟩
  · intro nf hmem
    simp only [RunOut.events, List.mem_append] at hmem
    rcases hmem with (hmem | hmem) | hmem
    · exact e4 nf hmem
    · have := hpre _ hmem
      simp [isPreEv] at this
    · rw [hpostEv] at hmem
      have := run_postprocessing_events_post wo false
        (scanSteps (scanFuel files) fs ⟨modules, false, [], files⟩).fs
        (scanSteps (scanFuel files) fs
          ⟨modules, false, [], files⟩).st.modules (Event.expandedEv D nf)
        (by rw [run_postprocessing_false_eq]; exact hmem)
      simp [isPostEv] at this
  · apply lookupEntry_eq_none
    intro g hg heq
    exact hkeys g hg heq.symm
  · intro hmem
    simp only [RunOut.events, List.mem_append] at hmem
    rcases hmem with (hmem | hmem) | hmem
    · have := hscanEv _ hmem
      simp [isScanEv] at this
    · have := hpre _ hmem
      simp [isPreEv] at this
    · rw [hpostEv] at hmem
      exact hpost.1 hmem
  · intro hmem
    simp only [RunOut.events, List.mem_append] at hmem
    rcases hmem with (hmem | hmem) | hmem
    · have := hscanEv _ hmem
      simp [isScanEv] at this
    · have := hpre _ hmem
      simp [isPreEv] at this
    · rw [hpostEv] at hmem
      exact hpost.2 hmem


/-- Witness for C6: a plain document scanned by a detector whose regex
never matches is bit-for-bit unchanged after a full run. -/
theorem C6_untouched_document_pristine_witness :
    (process_all demoOracle demoWo false [demoNeverModuleState] [bMd]
      plainFs).fs bMd = some ["plain"] ∧
    lookupEntry (groupByFile (process_all demoOracle demoWo false
      [demoNeverModuleState] [bMd] plainFs).st.modules) bMd = none :=
  ⟨(C6_untouched_document_pristine demoOracle demoWo
      [demoNeverModuleState] [bMd] plainFs bMd ["plain"] rfl rfl
      (fun j hj => absurd hj (List.not_mem_nil j))
      (fun pp hpp => absurd hpp (List.not_mem_nil pp))
      (fun spec hs i l hget hr => by
        simp only [demoNeverModuleState, List.map_cons, List.map_nil,
          List.mem_singleton] at hs
        rw [hs] at hr
        exact Bool.noConfusion hr)).1,
   (C6_untouched_document_pristine demoOracle demoWo
      [demoNeverModuleState] [bMd] plainFs bMd ["plain"] rfl rfl
      (fun j hj => absurd hj (List.not_mem_nil j))
      (fun pp hpp => absurd hpp (List.not_mem_nil pp))
      (fun spec hs i l hget hr => by
        simp only [demoNeverModuleState, List.map_cons, List.map_nil,
          List.mem_singleton] at hs
        rw [hs] at hr
        exact Bool.noConfusion hr)).2.2.1⟩


/-- C7: requesting promotion of a document already in canonical nested
form (named `index.md`) is a reported, non-fatal outcome signalled
distinctly: `expand_file` performs no move, marks nothing expanded,
returns no new path and emits the `warnAlreadyIndex` diagnostic, which
differs from the `expandError` diagnostic of an ordinary promotion
failure; `process_file` on such a document leaves the filesystem, the
worklist and the expanded set unchanged (the run continues), and when
expansion was requested during its scan the warning is reported. -/
theorem C7_already_canonical (dry : Bool) (fs : Fs)
    (expanded : List FPath) (fp : FPath) (h : fp.name = "index.md") :
    expand_file dry fs expanded fp =
      ⟨none, fs, expanded, Event.warnAlreadyIndex fp⟩ ∧
    (∀ q : FPath, Event.warnAlreadyIndex fp ≠ Event.expandError q) ∧
    (∀ st : ProcState, (process_file fs st fp).2.1 = fs ∧
      (process_file fs st fp).1.files_to_process = st.files_to_process ∧
      (process_file fs st fp).1.expanded_files = st.expanded_files) ∧
    (∀ st : ProcState, ∀ lines, fp ∉ st.expanded_files →
      fs fp = some lines →
      (scanLinesFrom fp 0 lines st.modules).2 = true →
      Event.warnAlreadyIndex fp ∈ (process_file fs st fp).2.2) := by
  refine ⟨by simp [expand_file, h], ?_, ?_, ?_⟩
  · intro q heq
    exact Event.noConfusion heq
  · intro st
    rcases process_file_char fs st fp with ⟨_, hc⟩ | ⟨_, _, hc⟩
      | ⟨_, _, _, _, hc⟩ | ⟨_, _, _, _, _, hc⟩
      | ⟨_, _, _, _, hname, _, hc⟩
      | ⟨_, _, _, _, _, hname, _, _, hc⟩
      | ⟨_, _, _, _, hname, _, _, hc⟩ <;>
      first
        | (exact absurd h hname)
        | (rw [hc]; exact ⟨rfl, rfl, rfl⟩)
  · intro st lines hmem hread hflag
    simp [process_file, hmem, hread, hflag, expand_file, h]

/-- Witness for C7: expanding the already-canonical `content/a/index.md`
is refused with the distinct warning and changes nothing. -/
theorem C7_already_canonical_witness :
    expand_file false demoFs [] (expandTarget aMd) =
      ⟨none, demoFs, [], Event.warnAlreadyIndex (expandTarget aMd)⟩ ∧
    Event.warnAlreadyIndex (expandTarget aMd) ∈
      (process_file
        (fun p => if p = expandTarget aMd then some ["x"] else none)
        ⟨[⟨⟨"expander", fun _ => true, fun _ _ _ => (Action.EXPAND, {}),
           fun _ _ l _ => l⟩, [], []⟩], false, [], []⟩
        (expandTarget aMd)).2.2 :=
  ⟨(C7_already_canonical false demoFs [] (expandTarget aMd)
      (expandTarget_name aMd)).1,
   (C7_already_canonical false
      (fun p => if p = expandTarget aMd then some ["x"] else none) []
      (expandTarget aMd) (expandTarget_name aMd)).2.2.2
      ⟨[⟨⟨"expander", fun _ => true, fun _ _ _ => (Action.EXPAND, {}),
         fun _ _ l _ => l⟩, [], []⟩], false, [], []⟩ ["x"]
      (List.not_mem_nil _) rfl rfl⟩


/-- C2: in every reachable state of the rate-limited worker pool, any two
completed `preprocess` executions attributed to the same origin occupy
non-overlapping time intervals and their start instants are at least the
configured minimum interval apart; and a job with no extractable URL (no
URL in its metadata, or an empty netloc) is assigned the shared
`"__local__"` bucket, so all such jobs are serialized against each
other. -/
theorem C2_origin_exclusion :
    (∀ (netloc : String → String) (delay : ℚ) (jobs : Nat → Job)
      (n0 : ℚ) (s : PoolState), 0 ≤ delay →
      PoolReachable netloc delay jobs n0 s →
      ∀ i j sti fi stj fj, i ≠ j →
        extract_domain_from_job netloc (s.threads i).job =
          extract_domain_from_job netloc (s.threads j).job →
        (s.threads i).phase = Phase.finished sti fi →
        (s.threads j).phase = Phase.finished stj fj →
        ((fi ≤ stj ∨ fj ≤ sti) ∧
         (sti + delay ≤ stj ∨ stj + delay ≤ sti))) ∧
    (∀ (netloc : String → String) (job : Job), jobUrl job = none →
      extract_domain_from_job netloc job = "__local__") ∧
    (∀ (netloc : String → String) (job : Job) (u : String),
      jobUrl job = some u → netloc u = "" →
      extract_domain_from_job netloc job = "__local__") := by
  refine ⟨?_, ?_, ?_⟩
  · intro netloc delay jobs n0 s hdelay hreach i j sti fi stj fj hij
      hdom hfi hfj
    have hinv := poolInv_reachable hreach
    have hdomTh : (s.threads i).domain netloc =
        (s.threads j).domain netloc := hdom
    have hff := hinv.fin_fin i j sti fi stj fj hij hdomTh hfi hfj
    have h2i := hinv.fin_le i sti fi hfi
    have h2j := hinv.fin_le j stj fj hfj
    constructor
    · rcases hff with h | h
      · left; linarith
      · right; linarith
    · rcases hff with h | h
      · left; linarith [h2i.1]
      · right; linarith [h2j.1]
  · intro netloc job h
    unfold extract_domain_from_job
    rw [h]
  · intro netloc job u hu hn
    unfold extract_domain_from_job
    rw [hu]
    simp [hn]

/-- Witness for C2: a concrete two-thread schedule on the shared
`"__local__"` bucket is reachable, both executions complete, and the
theorem yields non-overlap and the one-second start gap. -/
theorem C2_origin_exclusion_witness :
    PoolReachable poolNetloc 1 (fun _ => poolJob) 0 poolS7 ∧
    (poolS7.threads 0).phase = Phase.finished 0 0 ∧
    (poolS7.threads 1).phase = Phase.finished (0 + 1) (0 + 1) ∧
    (((0 : ℚ) ≤ 0 + 1 ∨ (0 : ℚ) + 1 ≤ 0) ∧
     ((0 : ℚ) + 1 ≤ 0 + 1 ∨ (0 : ℚ) + 1 + 1 ≤ 0)) := by
  have step1 : Step poolNetloc 1 poolS0 poolS1 :=
    Step.acquire 0 rfl rfl rfl rfl rfl rfl
  have step2 : Step poolNetloc 1 poolS1 poolS2 :=
    Step.start 0 rfl (fun t ht => Option.noConfusion ht) rfl rfl rfl rfl
  have step3 : Step poolNetloc 1 poolS2 poolS3 :=
    Step.finish 0 poolS1.now rfl rfl rfl rfl rfl
  have step4 : Step poolNetloc 1 poolS3 poolS4 :=
    Step.tick 1 (by norm_num) rfl rfl rfl rfl
  have step5 : Step poolNetloc 1 poolS4 poolS5 :=
    Step.acquire 1 rfl rfl rfl rfl rfl rfl
  have step6 : Step poolNetloc 1 poolS5 poolS6 :=
    Step.start 1 rfl
      (fun t ht => by
        have hh : t = 0 :=
          (Option.some.inj (show some (0 : ℚ) = some t from ht)).symm
        rw [hh]
        show (0 : ℚ) + 1 ≤ poolS5.now
        show (0 : ℚ) + 1 ≤ 0 + 1
        norm_num)
      rfl rfl rfl rfl
  have step7 : Step poolNetloc 1 poolS6 poolS7 :=
    Step.finish 1 poolS5.now rfl rfl rfl rfl rfl
  have hreach : PoolReachable poolNetloc 1 (fun _ => poolJob) 0 poolS7 :=
    Relation.ReflTransGen.tail
      (Relation.ReflTransGen.tail
        (Relation.ReflTransGen.tail
          (Relation.ReflTransGen.tail
            (Relation.ReflTransGen.tail
              (Relation.ReflTransGen.tail
                (Relation.ReflTransGen.tail Relation.ReflTransGen.refl
                  step1)
                step2)
              step3)
            step4)
          step5)
        step6)
      step7
  refine ⟨hreach, rfl, rfl, ?_⟩
  exact C2_origin_exclusion.1 poolNetloc 1 (fun _ => poolJob) 0 poolS7
    (by norm_num) hreach 0 1 0 0 (0 + 1) (0 + 1) (by omega) rfl rfl rfl

end Auxmark
